import Mathlib

/-! # deptree: the command entry point `cmd/root.go`

A shallow embedding of `Execute`, `getUpgradeContent` and `getGraphFile`
from `cmd/root.go`.  The functions are effectful: they parse the command
line, touch the file system, run `go list`, print to standard output and
call into the packages `internal/verbose`, `internal/moduleinfo` and
`internal/tree`.  The embedding makes the outside world an explicit
parameter (`Env`) and records every effect in a trace of `Event`s, so that
statements about the order of phases, about what is written to standard
output, and about the values handed to the tree builder become statements
about a pure function.

Go strings are modelled by `String`; the only characters the flag parser
inspects, `-` and `=`, are ASCII, so splitting on them per character agrees
with Go's splitting per byte.
-/

namespace Deptree

/-! ## Data -/

/-- Raw content of a file or of a command's standard output. -/
abbrev Bytes := List Nat

/-- A value of type `*os.File` as used by `getGraphFile`: either `os.Stdin`
or the handle `os.Open` returned for a path. -/
inductive Handle where
  | stdin
  | opened (path : String)
  deriving DecidableEq, Repr

/-- The local variables of `Execute` that hold objects: `v`, `info`, `tree`
and `file`. -/
inductive Obj where
  | v
  | info
  | tree
  | file
  deriving DecidableEq, Repr

/-- The calls `cmd/root.go` makes into the packages `internal/verbose`,
`internal/moduleinfo` and `internal/tree`, with the values it passes. -/
inductive Call where
  /-- The call `verbose.NewVerbose(*verboseLevel)` -/
  | newVerbose (level : Int)
  /-- The call `moduleinfo.NewInfo(v)` -/
  | newInfo
  /-- The call `info.Fill(content)` -/
  | infoFill (content : Bytes)
  /-- The call `v.Log1f(msg)` -/
  | log1f (msg : String)
  /-- The call `tree.NewTree(root, v, depth, showDroppedChild, visualizeTrimmed, showAll, colored, *info)` -/
  | newTree (root : String) (depth : Int)
      (showDroppedChild visualizeTrimmed showAll colored : Bool)
  /-- The call `tree.Fill(file)` -/
  | treeFill (file : Handle)
  /-- The call `info.Adjust()` -/
  | infoAdjust
  /-- The call `tree.Print(*printJSON)` -/
  | treePrint (asJSON : Bool)
  deriving DecidableEq, Repr

/-- The functions and methods of the internal packages that `cmd/root.go`
calls, without their arguments. -/
inductive Method where
  | newVerbose
  | newInfo
  | infoFill
  | log1f
  | newTree
  | treeFill
  | infoAdjust
  | treePrint
  deriving DecidableEq, Repr

/-- The function or method a call invokes. -/
def Call.method : Call → Method
  | .newVerbose _ => .newVerbose
  | .newInfo => .newInfo
  | .infoFill _ => .infoFill
  | .log1f _ => .log1f
  | .newTree _ _ _ _ _ _ => .newTree
  | .treeFill _ => .treeFill
  | .infoAdjust => .infoAdjust
  | .treePrint _ => .treePrint

/-- The object a method is called on, read off the call sites in
`cmd/root.go`: `info.Fill`, `v.Log1f`, `tree.Fill`, `info.Adjust`,
`tree.Print`; the three constructors are package-level functions. -/
def Method.receiver : Method → Option Obj
  | .newVerbose => none
  | .newInfo => none
  | .infoFill => some .info
  | .log1f => some .v
  | .newTree => none
  | .treeFill => some .tree
  | .infoAdjust => some .info
  | .treePrint => some .tree

/-- The objects a call receives as arguments, read off the call sites in
`cmd/root.go`: `NewInfo(v)`, `NewTree(root, v, ..., *info)`, `tree.Fill(file)`;
the other calls get plain values or nothing. -/
def Method.objArgs : Method → List Obj
  | .newVerbose => []
  | .newInfo => [.v]
  | .infoFill => []
  | .log1f => []
  | .newTree => [.v, .info]
  | .treeFill => [.file]
  | .infoAdjust => []
  | .treePrint => []

/-- The objects a call takes as input: its receiver and its object
arguments. -/
def Method.inputs (m : Method) : List Obj :=
  m.receiver.toList ++ m.objArgs

/-- Whether `Execute` uses a value the call returns.  It does so for the
three constructors (`v := ...`, `info := ...`, `tree := ...`); every method
call in `cmd/root.go` is a statement. -/
def Method.resultUsed : Method → Bool
  | .newVerbose => true
  | .newInfo => true
  | .newTree => true
  | _ => false

/-- A lookup at a call site: a method call made for the value it returns. -/
def Method.isLookup (m : Method) : Bool :=
  m.receiver.isSome && m.resultUsed

/-- The four pipeline phases `Execute` runs: `info.Fill`, `tree.Fill`,
`info.Adjust` and `tree.Print`. -/
def Method.isPhase : Method → Bool
  | .infoFill => true
  | .treeFill => true
  | .infoAdjust => true
  | .treePrint => true
  | _ => false

/-- How a call into one of the internal packages ends: it returns, it
terminates the process (as `log.Fatal` does), or it panics. -/
inductive CallResult where
  | returns
  | exits
  | panics
  deriving DecidableEq, Repr

/-- Observable effects of a run, in the order they happen. -/
inductive Event where
  /-- Text written to standard output by `fmt.Println` / `fmt.Printf` -/
  | stdout (text : String)
  /-- Running `exec.Command(argv...)` with `cmd.Run()` -/
  | exec (argv : List String)
  /-- Reading with `ioutil.ReadFile(path)` -/
  | readFile (path : String)
  /-- Opening with `os.Open(path)` -/
  | openFile (path : String)
  /-- A call into an internal package starts -/
  | call (c : Call)
  /-- That call has returned -/
  | ret (c : Call)
  /-- The deferred `file.Close()` -/
  | close (h : Handle)
  deriving DecidableEq, Repr

/-- Errors of `flag.Parse`, after `flag.parseOne`. -/
inductive FlagError where
  | malformed (arg : String)
  | help
  | undefinedFlag (name : String)
  | invalidBool (value name : String)
  | needsArgument (name : String)
  | invalidValue (value name : String)
  deriving DecidableEq, Repr

/-- The ways a run ends without `Execute` returning. -/
inductive Abort where
  /-- Exit of `flag.Parse` under `ExitOnError`: `os.Exit(0)` for `-h`/`-help`, else `os.Exit(2)` -/
  | flagExit (code : Nat) (e : FlagError)
  /-- Exit through `log.Fatal` / `log.Fatalf`: message on standard error, then `os.Exit(1)` -/
  | fatal (msg : String)
  /-- A callee terminated the process -/
  | exited (c : Call)
  /-- A callee panicked -/
  | panicked (c : Call)
  deriving DecidableEq, Repr

/-- The outside world of one run. -/
structure Env where
  /-- The function `strconv.ParseInt(s, 0, strconv.IntSize)`, as used by the `flag` package for `flag.Int` -/
  atoi : String → Option Int
  /-- The function `filepath.Abs` -/
  abs : String → Except String String
  /-- The function `ioutil.ReadFile` -/
  readFile : String → Except String Bytes
  /-- The function `os.Open`: `none` when the file was opened, the error otherwise -/
  openFile : String → Option String
  /-- Running `go list -u -m -json all`: the error and the captured standard
  error, or the captured standard output -/
  goList : Except (String × String) Bytes
  /-- How each call into the internal packages ends -/
  outcome : Call → CallResult

/-- Result of running a piece of the program: the effects so far and either
a value or the way the run ended. -/
structure Res (α : Type) where
  trace : List Event
  val : Except Abort α

namespace Res

/-- A step without effects. -/
def pure {α : Type} (a : α) : Res α := ⟨[], .ok a⟩

/-- Sequencing: the second part runs only when the first produced a value. -/
def bind {α β : Type} (m : Res α) (f : α → Res β) : Res β :=
  match m.val with
  | .error e => ⟨m.trace, .error e⟩
  | .ok a => ⟨m.trace ++ (f a).trace, (f a).val⟩

instance : Monad Res where
  pure := Res.pure
  bind := Res.bind

/-- One effect. -/
def emit (e : Event) : Res Unit := ⟨[e], .ok ()⟩

/-- The run ends here. -/
def abort {α : Type} (a : Abort) : Res α := ⟨[], .error a⟩

end Res

/-- A call into an internal package. -/
def invoke (env : Env) (c : Call) : Res Unit :=
  match env.outcome c with
  | .returns => ⟨[.call c, .ret c], .ok ()⟩
  | .exits => ⟨[.call c], .error (.exited c)⟩
  | .panics => ⟨[.call c], .error (.panicked c)⟩

/-- Go's `defer file.Close()`: the close runs when the rest of the function
returns or panics, not when the process exits. -/
def deferClose {α : Type} (h : Handle) (body : Res α) : Res α :=
  match body.val with
  | .ok a => ⟨body.trace ++ [.close h], .ok a⟩
  | .error (.panicked c) => ⟨body.trace ++ [.close h], .error (.panicked c)⟩
  | .error e => ⟨body.trace, .error e⟩

/-! ## The command line: package `flag` as `Execute` uses it -/

/-- Values of the nine flags `Execute` defines. -/
structure Flags where
  showAll : Bool
  colored : Bool
  depth : Int
  showDroppedChild : Bool
  visualizeTrimmed : Bool
  printJSON : Bool
  graphFile : String
  upgradeFile : String
  verboseLevel : Int
  deriving DecidableEq, Repr

/-- The defaults given in the flag definitions of `Execute`
(`flag.Bool("a", true, ...)`, `flag.Int("d", 5, ...)` and so on). -/
def Flags.defaults : Flags where
  showAll := true
  colored := false
  depth := 5
  showDroppedChild := true
  visualizeTrimmed := true
  printJSON := false
  graphFile := "grapphfile.txt"
  upgradeFile := "upgradefile.txt"
  verboseLevel := 0

/-- The three kinds of flag values `Execute` defines. -/
inductive FlagKind where
  | bool
  | int
  | string
  deriving DecidableEq, Repr

/-- The flags `Execute` defines, by name. -/
def flagKind (name : String) : Option FlagKind :=
  if name = "a" then some .bool
  else if name = "c" then some .bool
  else if name = "d" then some .int
  else if name = "f" then some .bool
  else if name = "t" then some .bool
  else if name = "json" then some .bool
  else if name = "graph" then some .string
  else if name = "upgrade" then some .string
  else if name = "v" then some .int
  else none

/-- Go's `strconv.ParseBool`, which `flag.Bool` values use. -/
def parseBool (s : String) : Option Bool :=
  if s ∈ ["1", "t", "T", "TRUE", "true", "True"] then some true
  else if s ∈ ["0", "f", "F", "FALSE", "false", "False"] then some false
  else none

/-- Setting a flag from its textual value (`flag.Value.Set`); `none` when the
text is not a value of the flag's type or the flag is not defined. -/
def Flags.set (atoi : String → Option Int) (fl : Flags) (name value : String) :
    Option Flags :=
  if name = "a" then (parseBool value).map fun b => { fl with showAll := b }
  else if name = "c" then (parseBool value).map fun b => { fl with colored := b }
  else if name = "d" then (atoi value).map fun n => { fl with depth := n }
  else if name = "f" then (parseBool value).map fun b => { fl with showDroppedChild := b }
  else if name = "t" then (parseBool value).map fun b => { fl with visualizeTrimmed := b }
  else if name = "json" then (parseBool value).map fun b => { fl with printJSON := b }
  else if name = "graph" then some { fl with graphFile := value }
  else if name = "upgrade" then some { fl with upgradeFile := value }
  else if name = "v" then (atoi value).map fun n => { fl with verboseLevel := n }
  else none

/-- What `flag.parseOne` sees in one argument. -/
inductive Token where
  /-- Not a flag: shorter than two bytes or not starting with `-`; parsing stops and the argument stays -/
  | nonFlag
  /-- The argument `--`: parsing stops and the argument is dropped -/
  | terminator
  /-- Bad flag syntax: an empty name or a name starting with `-` or `=` -/
  | malformed
  /-- A flag with its name and, for the form `-name=value`, its value -/
  | flag (name : String) (value : Option String)
  deriving DecidableEq, Repr

/-- The name part of a flag argument, after the one or two leading minus
signs: rejected when empty or starting with `-` or `=`, otherwise split at the
first `=` past the first character. -/
def nameValue (name : List Char) : Token :=
  match name with
  | [] => .malformed
  | c :: cs =>
    if c = '-' ∨ c = '=' then .malformed
    else
      match cs.span (fun x => x ≠ '=') with
      | (n, []) => .flag (String.mk (c :: n)) none
      | (n, _ :: v) => .flag (String.mk (c :: n)) (some (String.mk v))

/-- The head of `flag.parseOne`: the shape of one argument. -/
def classify (s : String) : Token :=
  match s.toList with
  | '-' :: c :: cs =>
    if c = '-' then
      if cs = [] then .terminator else nameValue cs
    else nameValue (c :: cs)
  | _ => .nonFlag

/-- The loop of `flag.Parse` over `flag.parseOne`: the flag values and the
remaining arguments (`flag.Args()`), or the error that ends the run. -/
def parseArgs (atoi : String → Option Int) (fl : Flags) :
    List String → Except FlagError (Flags × List String)
  | [] => .ok (fl, [])
  | s :: rest =>
    match classify s with
    | .nonFlag => .ok (fl, s :: rest)
    | .terminator => .ok (fl, rest)
    | .malformed => .error (.malformed s)
    | .flag name value =>
      match flagKind name with
      | none =>
        if name = "help" ∨ name = "h" then .error .help
        else .error (.undefinedFlag name)
      | some .bool =>
        match value with
        | some v =>
          match fl.set atoi name v with
          | some fl1 => parseArgs atoi fl1 rest
          | none => .error (.invalidBool v name)
        | none =>
          match fl.set atoi name "true" with
          | some fl1 => parseArgs atoi fl1 rest
          | none => .error (.invalidBool "true" name)
      | some _ =>
        match value with
        | some v =>
          match fl.set atoi name v with
          | some fl1 => parseArgs atoi fl1 rest
          | none => .error (.invalidValue v name)
        | none =>
          match rest with
          | [] => .error (.needsArgument name)
          | v :: rest1 =>
            match fl.set atoi name v with
            | some fl1 => parseArgs atoi fl1 rest1
            | none => .error (.invalidValue v name)

/-! ## `cmd/root.go` -/

/-- The function `getUpgradeContent`: the JSON content from the `go list`
call or from the upgrade file. -/
def getUpgradeContent (env : Env) (upgradeFile : String) : Res Bytes := do
  let content ← (
    if upgradeFile.length = 0 then do
      Res.emit (.stdout "call 'go list -u -m -json all', be patient...\n")
      Res.emit (.exec ["go", "list", "-u", "-m", "-json", "all"])
      match env.goList with
      | .error (err, errbuf) => Res.abort (.fatal (err ++ ", " ++ errbuf))
      | .ok outbuf => pure outbuf
    else
      match env.abs upgradeFile with
      | .error err => Res.abort (.fatal err)
      | .ok path => do
        Res.emit (.stdout ("use upgrade file " ++ path ++ "\n"))
        Res.emit (.readFile path)
        match env.readFile path with
        | .error err => Res.abort (.fatal err)
        | .ok bytes => pure bytes)
  invoke env (.log1f "upgrade content retrieved")
  pure content

/-- The function `getGraphFile`: the file handle to read the graph from,
standard input or the graph file. -/
def getGraphFile (env : Env) (graphFile : String) : Res Handle := do
  let file ← (
    if graphFile.length = 0 then pure Handle.stdin
    else
      match env.abs graphFile with
      | .error err => Res.abort (.fatal err)
      | .ok path => do
        Res.emit (.stdout ("use graph file " ++ path ++ "\n"))
        Res.emit (.openFile path)
        match env.openFile path with
        | some err => Res.abort (.fatal err)
        | none => pure (Handle.opened path))
  invoke env (.log1f "graph content retrieved")
  pure file

/-- The root handed to the tree builder: `flag.Arg(0)` when `flag.NArg() > 0`,
the empty string otherwise. -/
def rootOf (positional : List String) : String :=
  match positional with
  | [] => ""
  | r :: _ => r

/-- The body of `Execute` after `flag.Parse()`. -/
def run (env : Env) (fl : Flags) (positional : List String) : Res Unit := do
  let root := rootOf positional
  invoke env (.newVerbose fl.verboseLevel)
  invoke env .newInfo
  let content ← getUpgradeContent env fl.upgradeFile
  invoke env (.infoFill content)
  invoke env (.log1f "fill with upgrade content done")
  invoke env (.newTree root fl.depth fl.showDroppedChild fl.visualizeTrimmed
    fl.showAll fl.colored)
  let file ← getGraphFile env fl.graphFile
  deferClose file do
    invoke env (.treeFill file)
    invoke env (.log1f "fill with graph content done")
    invoke env .infoAdjust
    invoke env (.log1f "content adjusted")
    invoke env (.treePrint fl.printJSON)
    invoke env (.log1f "finished")

/-- The function `Execute` on the command-line arguments `os.Args[1:]`. -/
def Execute (env : Env) (args : List String) : Res Unit :=
  match parseArgs env.atoi Flags.defaults args with
  | .error e => Res.abort (.flagExit (if e = .help then 0 else 2) e)
  | .ok (fl, positional) => run env fl positional

/-! ## A concrete world for evaluating the model -/

/-- Decimal numerals as `strconv.ParseInt(s, 0, 64)` reads them: an optional
sign and digits without a leading zero (a leading zero selects another base in
Go), within the range of a 64-bit `int`.  Every other text is rejected here. -/
def atoiDec (s : String) : Option Int :=
  let digits (cs : List Char) : Option Nat :=
    if cs = [] ∨ ¬ cs.all Char.isDigit ∨ (cs.head? = some '0' ∧ cs ≠ ['0']) then none
    else some (cs.foldl (fun n c => 10 * n + (c.toNat - '0'.toNat)) 0)
  match s.toList with
  | '-' :: cs => (digits cs).bind fun n => if n ≤ 2 ^ 63 then some (-(n : Int)) else none
  | '+' :: cs => (digits cs).bind fun n => if n < 2 ^ 63 then some (n : Int) else none
  | cs => (digits cs).bind fun n => if n < 2 ^ 63 then some (n : Int) else none

/-- A world in which both input files exist and every call returns. -/
def envOk : Env where
  atoi := atoiDec
  abs := fun p => .ok ("/w/" ++ p)
  readFile := fun _ => .ok [123, 125]
  openFile := fun _ => none
  goList := .ok [123, 125]
  outcome := fun _ => .returns

/-- A world without a graph file: opening it fails. -/
def envNoGraphFile : Env where
  atoi := atoiDec
  abs := fun p => .ok ("/w/" ++ p)
  readFile := fun _ => .ok [123, 125]
  openFile := fun _ => some "no such file or directory"
  goList := .ok [123, 125]
  outcome := fun _ => .returns

/-- A world without an upgrade file: reading it fails. -/
def envNoUpgradeFile : Env where
  atoi := atoiDec
  abs := fun p => .ok ("/w/" ++ p)
  readFile := fun _ => .error "no such file or directory"
  openFile := fun _ => none
  goList := .ok [123, 125]
  outcome := fun _ => .returns

/-! ## Vocabulary of the statements -/

/-- The start or the return of a call, without its arguments. -/
inductive Step where
  | start (m : Method)
  | done (m : Method)
  deriving DecidableEq, Repr

/-- The method a step belongs to. -/
def Step.method : Step → Method
  | .start m => m
  | .done m => m

/-- The step an event is, for the events that are calls or returns. -/
def Event.step : Event → Option Step
  | .call c => some (.start c.method)
  | .ret c => some (.done c.method)
  | _ => none

/-- The calls and returns of a trace, in order. -/
def steps (tr : List Event) : List Step := tr.filterMap Event.step

/-- The calls and returns of the four phases in a trace, in order. -/
def phaseSteps (tr : List Event) : List Step :=
  (steps tr).filter fun s => s.method.isPhase

/-- The phase a step invokes, when the step is the start of a phase. -/
def Step.phaseStarted : Step → Option Method
  | .start m => if m.isPhase then some m else none
  | .done _ => none

/-- The phases a trace invokes, in order. -/
def phasesInvoked (tr : List Event) : List Method :=
  (steps tr).filterMap Step.phaseStarted

/-- The text an event writes to standard output. -/
def Event.text : Event → Option String
  | .stdout s => some s
  | _ => none

/-- The text a trace writes to standard output, in order. -/
def stdoutOf (tr : List Event) : List String :=
  tr.filterMap Event.text

/-- Every call and return of a complete run of `Execute`, in program order. -/
def skeleton : List Step :=
  [.start .newVerbose, .done .newVerbose,
   .start .newInfo, .done .newInfo,
   .start .log1f, .done .log1f,
   .start .infoFill, .done .infoFill,
   .start .log1f, .done .log1f,
   .start .newTree, .done .newTree,
   .start .log1f, .done .log1f,
   .start .treeFill, .done .treeFill,
   .start .log1f, .done .log1f,
   .start .infoAdjust, .done .infoAdjust,
   .start .log1f, .done .log1f,
   .start .treePrint, .done .treePrint,
   .start .log1f, .done .log1f]

/-- The pipeline: registry fill, tree fill, adjust, print, each started and
returned from before the next. -/
def pipeline : List Step :=
  [.start .infoFill, .done .infoFill,
   .start .treeFill, .done .treeFill,
   .start .infoAdjust, .done .infoAdjust,
   .start .treePrint, .done .treePrint]

/-- The upgrade content the outside world delivers for an upgrade file
name: the output of `go list` for the empty name, else the bytes of the file at
the absolute form of the name; `none` when the command fails, the path cannot
be made absolute or the file cannot be read. -/
def upgradeContent? (env : Env) (upgradeFile : String) : Option Bytes :=
  if upgradeFile.length = 0 then
    match env.goList with
    | .error _ => none
    | .ok out => some out
  else
    match env.abs upgradeFile with
    | .error _ => none
    | .ok path =>
      match env.readFile path with
      | .error _ => none
      | .ok bytes => some bytes

/-- The handle the outside world delivers for a graph file name: standard
input for the empty name, else the file opened at the absolute form of the
name; `none` when the path cannot be made absolute or the file cannot be
opened. -/
def graphHandle? (env : Env) (graphFile : String) : Option Handle :=
  if graphFile.length = 0 then some .stdin
  else
    match env.abs graphFile with
    | .error _ => none
    | .ok path =>
      match env.openFile path with
      | some _ => none
      | none => some (.opened path)

/-- The part of a list after the first occurrence of `a`. -/
def afterFirst (a : Step) (l : List Step) : List Step :=
  (l.dropWhile fun s => s ≠ a).tail

/-- The part of a list before the first occurrence of `b`. -/
def beforeFirst (b : Step) (l : List Step) : List Step :=
  l.takeWhile fun s => s ≠ b

/-- A run's calls follow `full`: they are an initial segment of it, and all
of it when the run yields a value. -/
def Res.Follows {α : Type} (m : Res α) (full : List Step) : Prop :=
  steps m.trace <+: full ∧ ∀ a, m.val = .ok a → steps m.trace = full

/-- The abort is one of `log.Fatal` in `cmd/root.go`, or comes from a call
into an internal package that did not return. -/
def Abort.Expected (env : Env) (e : Abort) : Prop :=
  (∃ msg, e = .fatal msg) ∨
    ∃ c, (e = .exited c ∧ env.outcome c = .exits) ∨ (e = .panicked c ∧ env.outcome c = .panics)

/-- Every abort of the run is an expected one. -/
def Res.AbortsExpectedly {α : Type} (env : Env) (m : Res α) : Prop :=
  ∀ e, m.val = .error e → Abort.Expected env e

/-- The notice `getUpgradeContent` prints before running `go list`. -/
def goListNotice : String := "call 'go list -u -m -json all', be patient...\n"

/-! ## The tree and the propagation pass, after the specification

The packages `internal/tree` and `internal/moduleinfo` are not part of the
sources at hand; the tree node and the pass that marks ancestors are modelled
from sections 3 and 4.3 of the specification. -/

/-- Modelled from the spec: the `TreeNode` of section 3, an identity, a
depth, the three status flags and the ordered children.  The package
`internal/tree` that declares it is missing from the sources. -/
inductive TreeNode where
  | mk (identity : String) (depth : Nat)
      (hasDirectUpgrade needsTransitiveUpgrade trimmed : Bool)
      (children : List TreeNode)
  deriving Repr

/-- The flag `hasDirectUpgrade` of a node. -/
def TreeNode.hasDirectUpgrade : TreeNode → Bool
  | .mk _ _ hd _ _ _ => hd

/-- The flag `needsTransitiveUpgrade` of a node. -/
def TreeNode.needsTransitiveUpgrade : TreeNode → Bool
  | .mk _ _ _ nt _ _ => nt

mutual
/-- Modelled from the spec: the propagation pass `Adjust(tree)` of section
4.3, missing from the sources.  One post-order pass: the children are visited
first, then `needsTransitiveUpgrade` is set to the disjunction over the
children of `hasDirectUpgrade` or `needsTransitiveUpgrade`. -/
def Adjust : TreeNode → TreeNode
  | .mk ident depth hd _ tr cs =>
    .mk ident depth hd
      ((adjustAll cs).any fun c => c.hasDirectUpgrade || c.needsTransitiveUpgrade) tr
      (adjustAll cs)
/-- The pass over a list of children, in order. -/
def adjustAll : List TreeNode → List TreeNode
  | [] => []
  | c :: cs => Adjust c :: adjustAll cs
end

mutual
/-- The proper descendants of a node, at any depth. -/
def TreeNode.descendants : TreeNode → List TreeNode
  | .mk _ _ _ _ _ cs => descendantsAll cs
/-- The nodes of a list of subtrees: each root with its descendants. -/
def descendantsAll : List TreeNode → List TreeNode
  | [] => []
  | c :: cs => c :: (c.descendants ++ descendantsAll cs)
end

/-- A node is marked exactly when one of its proper descendants has a direct
upgrade. -/
def TreeNode.Marked (n : TreeNode) : Prop :=
  n.needsTransitiveUpgrade = true ↔ ∃ d ∈ n.descendants, d.hasDirectUpgrade = true

/-- The example of section 8 of the specification: edges `A B`, `B C`, `B D`
with `D` upgradable, before the propagation pass. -/
def exampleTree : TreeNode :=
  .mk "A" 0 false false false
    [.mk "B" 1 false false false
      [.mk "C" 2 false false false [], .mk "D" 2 true false false []]]

/-! # Theorems -/

/-! ## Sequencing lemmas -/

theorem bind_eq {α β : Type} (m : Res α) (f : α → Res β) : (m >>= f) = Res.bind m f := rfl

theorem pure_eq {α : Type} (a : α) : (Pure.pure a : Res α) = Res.pure a := rfl

theorem trace_bind {α β : Type} (m : Res α) (f : α → Res β) :
    (Res.bind m f).trace =
      m.trace ++ (match m.val with | .ok a => (f a).trace | .error _ => []) := by
  unfold Res.bind; cases m.val <;> simp

theorem val_bind {α β : Type} (m : Res α) (f : α → Res β) :
    (Res.bind m f).val = (match m.val with | .ok a => (f a).val | .error e => .error e) := by
  unfold Res.bind; cases m.val <;> simp

theorem mem_trace_bind {α β : Type} (m : Res α) (f : α → Res β) (e : Event) :
    e ∈ (Res.bind m f).trace ↔ e ∈ m.trace ∨ ∃ a, m.val = .ok a ∧ e ∈ (f a).trace := by
  rw [trace_bind]; cases m.val <;> simp

theorem val_bind_ok {α β : Type} (m : Res α) (f : α → Res β) (b : β) :
    (Res.bind m f).val = .ok b ↔ ∃ a, m.val = .ok a ∧ (f a).val = .ok b := by
  rw [val_bind]; cases m.val <;> simp

theorem mem_trace_invoke (env : Env) (c : Call) (e : Event) :
    e ∈ (invoke env c).trace ↔ e = .call c ∨ (e = .ret c ∧ env.outcome c = .returns) := by
  unfold invoke; cases env.outcome c <;> simp

theorem val_invoke_ok (env : Env) (c : Call) (u : Unit) :
    (invoke env c).val = .ok u ↔ env.outcome c = .returns := by
  unfold invoke; cases env.outcome c <;> simp

theorem val_deferClose_ok {α : Type} (h : Handle) (body : Res α) (a : α) :
    (deferClose h body).val = .ok a ↔ body.val = .ok a := by
  unfold deferClose
  split <;> simp_all

theorem steps_append (l₁ l₂ : List Event) : steps (l₁ ++ l₂) = steps l₁ ++ steps l₂ := by
  simp [steps]

theorem steps_deferClose {α : Type} (h : Handle) (body : Res α) :
    steps (deferClose h body).trace = steps body.trace := by
  unfold deferClose
  split <;> simp [steps, Event.step]

theorem follows_pure {α : Type} (a : α) : (Res.pure a).Follows [] := by
  simp [Res.Follows, Res.pure, steps]

theorem follows_abort {α : Type} (x : Abort) (full : List Step) :
    (Res.abort x : Res α).Follows full := by
  simp [Res.Follows, Res.abort, steps]

theorem follows_emit (e : Event) (he : e.step = none) : (Res.emit e).Follows [] := by
  simp [Res.Follows, Res.emit, steps, he]

theorem follows_invoke (env : Env) (c : Call) :
    (invoke env c).Follows [.start c.method, .done c.method] := by
  unfold invoke Res.Follows
  cases env.outcome c <;> simp [steps, Event.step, List.prefix_cons_iff]

theorem follows_bind {α β : Type} {m : Res α} {f : α → Res β} {A B : List Step}
    (hm : m.Follows A) (hf : ∀ a, m.val = .ok a → (f a).Follows B) :
    (Res.bind m f).Follows (A ++ B) := by
  obtain ⟨hp, hd⟩ := hm
  unfold Res.Follows
  rw [trace_bind, val_bind, steps_append]
  cases hv : m.val with
  | error e =>
    simp only [steps, List.filterMap_nil, List.append_nil, reduceCtorEq, false_implies,
      implies_true, and_true]
    exact hp.trans (List.prefix_append A B)
  | ok a =>
    simp only
    rw [hd a hv]
    obtain ⟨hp2, hd2⟩ := hf a hv
    exact ⟨(List.prefix_append_right_inj A).mpr hp2, fun b hb => by rw [hd2 b hb]⟩

theorem follows_deferClose {α : Type} {h : Handle} {body : Res α} {B : List Step}
    (hb : body.Follows B) : (deferClose h body).Follows B := by
  unfold Res.Follows
  rw [steps_deferClose]
  exact ⟨hb.1, fun a ha => hb.2 a ((val_deferClose_ok h body a).mp ha)⟩


/-! ## The two acquisition functions -/

theorem follows_getUpgradeContent (env : Env) (uf : String) :
    (getUpgradeContent env uf).Follows [.start .log1f, .done .log1f] := by
  unfold getUpgradeContent
  simp only [bind_eq, pure_eq]
  refine @follows_bind _ _ _ _ [] _ ?_ fun content _ =>
    @follows_bind _ _ _ _ _ [] (follows_invoke env _) fun _ _ => follows_pure content
  split
  · refine @follows_bind _ _ _ _ [] [] (follows_emit (.stdout _) rfl) fun _ _ => ?_
    refine @follows_bind _ _ _ _ [] [] (follows_emit (.exec _) rfl) fun _ _ => ?_
    split
    · exact follows_abort _ _
    · exact follows_pure _
  · split
    · exact follows_abort _ _
    · refine @follows_bind _ _ _ _ [] [] (follows_emit (.stdout _) rfl) fun _ _ => ?_
      refine @follows_bind _ _ _ _ [] [] (follows_emit (.readFile _) rfl) fun _ _ => ?_
      split
      · exact follows_abort _ _
      · exact follows_pure _

theorem follows_getGraphFile (env : Env) (gf : String) :
    (getGraphFile env gf).Follows [.start .log1f, .done .log1f] := by
  unfold getGraphFile
  simp only [bind_eq, pure_eq]
  refine @follows_bind _ _ _ _ [] _ ?_ fun file _ =>
    @follows_bind _ _ _ _ _ [] (follows_invoke env _) fun _ _ => follows_pure file
  split
  · exact follows_pure _
  · split
    · exact follows_abort _ _
    · refine @follows_bind _ _ _ _ [] [] (follows_emit (.stdout _) rfl) fun _ _ => ?_
      refine @follows_bind _ _ _ _ [] [] (follows_emit (.openFile _) rfl) fun _ _ => ?_
      split
      · exact follows_abort _ _
      · exact follows_pure _

theorem follows_run (env : Env) (fl : Flags) (pos : List String) :
    (run env fl pos).Follows skeleton := by
  unfold run
  simp only [bind_eq, pure_eq]
  refine @follows_bind _ _ _ _ [_, _] _ (follows_invoke env _) fun _ _ => ?_
  refine @follows_bind _ _ _ _ [_, _] _ (follows_invoke env _) fun _ _ => ?_
  refine @follows_bind _ _ _ _ [_, _] _ (follows_getUpgradeContent env _) fun content _ => ?_
  refine @follows_bind _ _ _ _ [_, _] _ (follows_invoke env _) fun _ _ => ?_
  refine @follows_bind _ _ _ _ [_, _] _ (follows_invoke env _) fun _ _ => ?_
  refine @follows_bind _ _ _ _ [_, _] _ (follows_invoke env _) fun _ _ => ?_
  refine @follows_bind _ _ _ _ [_, _] _ (follows_getGraphFile env _) fun file _ => ?_
  refine follows_deferClose ?_
  refine @follows_bind _ _ _ _ [_, _] _ (follows_invoke env _) fun _ _ => ?_
  refine @follows_bind _ _ _ _ [_, _] _ (follows_invoke env _) fun _ _ => ?_
  refine @follows_bind _ _ _ _ [_, _] _ (follows_invoke env _) fun _ _ => ?_
  refine @follows_bind _ _ _ _ [_, _] _ (follows_invoke env _) fun _ _ => ?_
  refine @follows_bind _ _ _ _ [_, _] _ (follows_invoke env _) fun _ _ => ?_
  exact follows_invoke env _

theorem follows_Execute (env : Env) (args : List String) :
    (Execute env args).Follows skeleton := by
  unfold Execute
  split
  · exact follows_abort _ _
  · exact follows_run env _ _


theorem length_eq_zero_iff (s : String) : s.length = 0 ↔ s = "" := by
  constructor
  · intro h
    cases s with
    | mk data =>
      have hd : data = [] := List.length_eq_zero.mp h
      subst hd
      rfl
  · rintro rfl
    rfl

theorem mem_call_deferClose {α : Type} (h : Handle) (body : Res α) (c : Call) :
    Event.call c ∈ (deferClose h body).trace ↔ Event.call c ∈ body.trace := by
  unfold deferClose
  split <;> simp

theorem mem_stdout_deferClose {α : Type} (h : Handle) (body : Res α) (s : String) :
    Event.stdout s ∈ (deferClose h body).trace ↔ Event.stdout s ∈ body.trace := by
  unfold deferClose
  split <;> simp

theorem mem_trace_emit (e x : Event) : x ∈ (Res.emit e).trace ↔ x = e := by
  simp [Res.emit]

theorem val_emit (e : Event) : (Res.emit e).val = .ok () := rfl

theorem mem_trace_pure {α : Type} (a : α) (x : Event) : x ∈ (Res.pure a).trace ↔ False := by
  simp [Res.pure]

theorem val_pure_ok {α : Type} (a b : α) : (Res.pure a).val = .ok b ↔ a = b := by
  simp [Res.pure]

theorem val_abort_ok {α : Type} (a : Abort) (b : α) :
    (Res.abort a : Res α).val = .ok b ↔ False := by
  simp [Res.abort]

/-- The value of `getUpgradeContent`. -/
theorem getUpgradeContent_val_ok (env : Env) (uf : String) (c : Bytes) :
    (getUpgradeContent env uf).val = .ok c ↔
      upgradeContent? env uf = some c ∧
        env.outcome (.log1f "upgrade content retrieved") = .returns := by
  unfold getUpgradeContent upgradeContent?
  simp only [bind_eq, pure_eq, val_bind_ok, val_invoke_ok, val_pure_ok]
  by_cases hz : uf.length = 0
  · simp only [hz, if_true]
    rcases hg : env.goList with ⟨err, errbuf⟩ | out <;>
      simp [val_bind_ok, val_emit, val_abort_ok, val_pure_ok, and_comm]
  · simp only [hz, if_false]
    rcases ha : env.abs uf with err | path
    · simp [val_abort_ok]
    · rcases hr : env.readFile path with err | bytes <;>
        simp [val_bind_ok, val_emit, val_abort_ok, val_pure_ok, hr, and_comm]

/-- The value of `getGraphFile`. -/
theorem getGraphFile_val_ok (env : Env) (gf : String) (h : Handle) :
    (getGraphFile env gf).val = .ok h ↔
      graphHandle? env gf = some h ∧
        env.outcome (.log1f "graph content retrieved") = .returns := by
  unfold getGraphFile graphHandle?
  simp only [bind_eq, pure_eq, val_bind_ok, val_invoke_ok, val_pure_ok]
  by_cases hz : gf.length = 0
  · simp [hz, val_pure_ok, and_comm]
  · simp only [hz, if_false]
    rcases ha : env.abs gf with err | path
    · simp [val_abort_ok]
    · rcases ho : env.openFile path with _ | err <;>
        simp [val_bind_ok, val_emit, val_abort_ok, val_pure_ok, ho, and_comm]

theorem run_val_ok (env : Env) (fl : Flags) (pos : List String) :
    (run env fl pos).val = .ok () ↔
      ∃ content file, upgradeContent? env fl.upgradeFile = some content ∧
        graphHandle? env fl.graphFile = some file ∧
        env.outcome (.newVerbose fl.verboseLevel) = .returns ∧
        env.outcome .newInfo = .returns ∧
        env.outcome (.log1f "upgrade content retrieved") = .returns ∧
        env.outcome (.infoFill content) = .returns ∧
        env.outcome (.log1f "fill with upgrade content done") = .returns ∧
        env.outcome (.newTree (rootOf pos) fl.depth fl.showDroppedChild fl.visualizeTrimmed
          fl.showAll fl.colored) = .returns ∧
        env.outcome (.log1f "graph content retrieved") = .returns ∧
        env.outcome (.treeFill file) = .returns ∧
        env.outcome (.log1f "fill with graph content done") = .returns ∧
        env.outcome .infoAdjust = .returns ∧
        env.outcome (.log1f "content adjusted") = .returns ∧
        env.outcome (.treePrint fl.printJSON) = .returns ∧
        env.outcome (.log1f "finished") = .returns := by
  unfold run
  simp only [bind_eq, pure_eq, val_bind_ok, val_invoke_ok, val_deferClose_ok,
    getUpgradeContent_val_ok, getGraphFile_val_ok, exists_const, exists_and_left]
  constructor
  · rintro ⟨h1, h2, c, ⟨h3, h4⟩, h5, h6, h7, f, ⟨h8, h9⟩, h10, h11, h12, h13, h14, h15⟩
    exact ⟨c, h3, f, h8, h1, h2, h4, h5, h6, h7, h9, h10, h11, h12, h13, h14, h15⟩
  · rintro ⟨c, h3, f, h8, h1, h2, h4, h5, h6, h7, h9, h10, h11, h12, h13, h14, h15⟩
    exact ⟨h1, h2, c, ⟨h3, h4⟩, h5, h6, h7, f, ⟨h8, h9⟩, h10, h11, h12, h13, h14, h15⟩


theorem mem_call_getUpgradeContent (env : Env) (uf : String) (c : Call)
    (h : Event.call c ∈ (getUpgradeContent env uf).trace) :
    c = .log1f "upgrade content retrieved" := by
  unfold getUpgradeContent at h
  simp only [bind_eq, pure_eq, mem_trace_bind, mem_trace_invoke, mem_trace_pure] at h
  rcases h with h | ⟨_, _, h⟩
  · exfalso
    split at h
    · simp only [mem_trace_bind, mem_trace_emit] at h
      rcases h with h | ⟨_, _, h | ⟨_, _, h⟩⟩
      · cases h
      · cases h
      · split at h <;> simp [Res.abort, Res.pure] at h
    · split at h
      · simp [Res.abort] at h
      · simp only [mem_trace_bind, mem_trace_emit] at h
        rcases h with h | ⟨_, _, h | ⟨_, _, h⟩⟩
        · cases h
        · cases h
        · split at h <;> simp [Res.abort, Res.pure] at h
  · simpa using h

theorem mem_call_getGraphFile (env : Env) (gf : String) (c : Call)
    (h : Event.call c ∈ (getGraphFile env gf).trace) :
    c = .log1f "graph content retrieved" := by
  unfold getGraphFile at h
  simp only [bind_eq, pure_eq, mem_trace_bind, mem_trace_invoke, mem_trace_pure] at h
  rcases h with h | ⟨_, _, h⟩
  · exfalso
    split at h
    · simp [Res.pure] at h
    · split at h
      · simp [Res.abort] at h
      · simp only [mem_trace_bind, mem_trace_emit] at h
        rcases h with h | ⟨_, _, h | ⟨_, _, h⟩⟩
        · cases h
        · cases h
        · split at h <;> simp [Res.abort, Res.pure] at h
  · simpa using h

theorem mem_stdout_getUpgradeContent (env : Env) (uf : String) (s : String)
    (h : Event.stdout s ∈ (getUpgradeContent env uf).trace) :
    (uf.length = 0 ∧ s = goListNotice) ∨
      (uf.length ≠ 0 ∧ ∃ path, env.abs uf = .ok path ∧ s = "use upgrade file " ++ path ++ "\n") := by
  unfold getUpgradeContent at h
  simp only [bind_eq, pure_eq, mem_trace_bind, mem_trace_invoke, mem_trace_pure] at h
  rcases h with h | ⟨_, _, h⟩
  · by_cases hz : uf.length = 0
    · simp only [hz, if_true, mem_trace_bind, mem_trace_emit] at h
      rcases h with h | ⟨_, _, h | ⟨_, _, h⟩⟩
      · left; exact ⟨hz, by simpa [goListNotice] using h⟩
      · cases h
      · exfalso; split at h <;> simp [Res.abort, Res.pure] at h
    · simp only [hz, if_false] at h
      rcases ha : env.abs uf with err | path
      · simp [ha, Res.abort] at h
      · simp only [ha, mem_trace_bind, mem_trace_emit] at h
        rcases h with h | ⟨_, _, h | ⟨_, _, h⟩⟩
        · right; exact ⟨hz, path, rfl, by simpa using h⟩
        · cases h
        · exfalso; split at h <;> simp [Res.abort, Res.pure] at h
  · simp at h

theorem mem_stdout_getGraphFile (env : Env) (gf : String) (s : String)
    (h : Event.stdout s ∈ (getGraphFile env gf).trace) :
    gf.length ≠ 0 ∧ ∃ path, env.abs gf = .ok path ∧ s = "use graph file " ++ path ++ "\n" := by
  unfold getGraphFile at h
  simp only [bind_eq, pure_eq, mem_trace_bind, mem_trace_invoke, mem_trace_pure] at h
  rcases h with h | ⟨_, _, h⟩
  · by_cases hz : gf.length = 0
    · simp [hz, Res.pure] at h
    · simp only [hz, if_false] at h
      rcases ha : env.abs gf with err | path
      · simp [ha, Res.abort] at h
      · simp only [ha, mem_trace_bind, mem_trace_emit] at h
        rcases h with h | ⟨_, _, h | ⟨_, _, h⟩⟩
        · exact ⟨hz, path, rfl, by simpa using h⟩
        · cases h
        · exfalso; split at h <;> simp [Res.abort, Res.pure] at h
  · simp at h

/-- Every call event of `run`, with what had to succeed before it. -/
theorem mem_call_run (env : Env) (fl : Flags) (pos : List String) (c : Call)
    (h : Event.call c ∈ (run env fl pos).trace) :
    c = .newVerbose fl.verboseLevel ∨ c = .newInfo ∨
    c = .log1f "upgrade content retrieved" ∨
    (∃ content, upgradeContent? env fl.upgradeFile = some content ∧
      (c = .infoFill content ∨ c = .log1f "fill with upgrade content done" ∨
       c = .newTree (rootOf pos) fl.depth fl.showDroppedChild fl.visualizeTrimmed
          fl.showAll fl.colored ∨
       c = .log1f "graph content retrieved" ∨
       (env.outcome (.infoFill content) = .returns ∧
        ∃ file, graphHandle? env fl.graphFile = some file ∧
        (c = .treeFill file ∨ c = .log1f "fill with graph content done" ∨
         (env.outcome (.treeFill file) = .returns ∧
          (c = .infoAdjust ∨ c = .log1f "content adjusted" ∨
           (env.outcome .infoAdjust = .returns ∧
            (c = .treePrint fl.printJSON ∨ c = .log1f "finished")))))))) := by
  unfold run at h
  simp only [bind_eq, pure_eq, mem_trace_bind, mem_trace_invoke, mem_call_deferClose,
    val_invoke_ok, getUpgradeContent_val_ok, getGraphFile_val_ok, Event.call.injEq,
    reduceCtorEq, false_and, or_false, exists_const] at h
  rcases h with h | ⟨-, h | ⟨-, h | ⟨a, ⟨ha, -⟩, h⟩⟩⟩
  · exact Or.inl h
  · exact Or.inr (Or.inl h)
  · exact Or.inr (Or.inr (Or.inl (mem_call_getUpgradeContent _ _ _ h)))
  · refine Or.inr (Or.inr (Or.inr ⟨a, ha, ?_⟩))
    rcases h with h | ⟨h1, h | ⟨-, h | ⟨-, h | ⟨f, ⟨hf, -⟩, h⟩⟩⟩⟩
    · exact Or.inl h
    · exact Or.inr (Or.inl h)
    · exact Or.inr (Or.inr (Or.inl h))
    · exact Or.inr (Or.inr (Or.inr (Or.inl (mem_call_getGraphFile _ _ _ h))))
    · refine Or.inr (Or.inr (Or.inr (Or.inr ⟨h1, f, hf, ?_⟩)))
      tauto

/-! ## Flag parsing -/

/-- Flag parsing keeps every property of the flag values that setting a flag
other than `key` keeps, on a command line without the flag `key`. -/
theorem parseArgs_preserves (atoi : String → Option Int) (key : String) (P : Flags → Prop)
    (hset : ∀ fl name v fl1, name ≠ key → Flags.set atoi fl name v = some fl1 → P fl → P fl1) :
    ∀ (n : Nat) (args : List String) (fl fl2 : Flags) (pos : List String),
      args.length ≤ n →
      (∀ a ∈ args, ∀ v, classify a ≠ .flag key v) → P fl →
      parseArgs atoi fl args = .ok (fl2, pos) → P fl2 := by
  intro n
  induction n with
  | zero =>
    intro args fl fl2 pos hn _ hP h
    have : args = [] := List.length_eq_zero.mp (Nat.le_zero.mp hn)
    subst this
    simp only [parseArgs, Except.ok.injEq, Prod.mk.injEq] at h
    exact h.1 ▸ hP
  | succ n ih =>
    intro args fl fl2 pos hn hno hP h
    cases args with
    | nil =>
      simp only [parseArgs, Except.ok.injEq, Prod.mk.injEq] at h
      exact h.1 ▸ hP
    | cons s rest =>
      have hrest : rest.length ≤ n := by simpa using hn
      have hs := hno s (List.mem_cons_self _ _)
      have hnorest : ∀ a ∈ rest, ∀ v, classify a ≠ .flag key v :=
        fun a ha => hno a (List.mem_cons_of_mem _ ha)
      simp only [parseArgs] at h
      cases hc : classify s with
      | nonFlag =>
        simp only [hc, Except.ok.injEq, Prod.mk.injEq] at h
        exact h.1 ▸ hP
      | terminator =>
        simp only [hc, Except.ok.injEq, Prod.mk.injEq] at h
        exact h.1 ▸ hP
      | malformed => simp [hc] at h
      | flag name value =>
        have hname : name ≠ key := fun hk => hs value (hk ▸ hc)
        simp only [hc] at h
        split at h
        · split at h <;> simp at h
        · split at h
          · split at h
            · rename_i fl1 hfl1
              exact ih rest fl1 fl2 pos hrest hnorest (hset _ _ _ _ hname hfl1 hP) h
            · simp at h
          · split at h
            · rename_i fl1 hfl1
              exact ih rest fl1 fl2 pos hrest hnorest (hset _ _ _ _ hname hfl1 hP) h
            · simp at h
        · split at h
          · split at h
            · rename_i fl1 hfl1
              exact ih rest fl1 fl2 pos hrest hnorest (hset _ _ _ _ hname hfl1 hP) h
            · simp at h
          · split at h
            · simp at h
            · rename_i v rest1
              split at h
              · rename_i fl1 hfl1
                refine ih rest1 fl1 fl2 pos ?_ ?_ (hset _ _ _ _ hname hfl1 hP) h
                · simp only [List.length_cons] at hrest
                  omega
                · exact fun a ha => hnorest a (List.mem_cons_of_mem _ ha)
              · simp at h


theorem set_depth (atoi : String → Option Int) (fl : Flags) (name v : String) (fl1 : Flags)
    (hn : name ≠ "d") (h : Flags.set atoi fl name v = some fl1) : fl1.depth = fl.depth := by
  unfold Flags.set at h
  split_ifs at h
  all_goals first
    | contradiction
    | (simp only [Option.map_eq_some', Option.some.injEq] at h
       obtain ⟨_, _, rfl⟩ := h
       rfl)

theorem set_showDroppedChild (atoi : String → Option Int) (fl : Flags) (name v : String)
    (fl1 : Flags) (hn : name ≠ "f") (h : Flags.set atoi fl name v = some fl1) :
    fl1.showDroppedChild = fl.showDroppedChild := by
  unfold Flags.set at h
  split_ifs at h
  all_goals first
    | contradiction
    | (simp only [Option.map_eq_some', Option.some.injEq] at h
       obtain ⟨_, _, rfl⟩ := h
       rfl)

/-- The arguments flag parsing leaves are a final segment of the command line. -/
theorem parseArgs_suffix (atoi : String → Option Int) :
    ∀ (n : Nat) (args : List String) (fl fl2 : Flags) (pos : List String),
      args.length ≤ n → parseArgs atoi fl args = .ok (fl2, pos) → pos <:+ args := by
  intro n
  induction n with
  | zero =>
    intro args fl fl2 pos hn h
    have : args = [] := List.length_eq_zero.mp (Nat.le_zero.mp hn)
    subst this
    simp only [parseArgs, Except.ok.injEq, Prod.mk.injEq] at h
    exact h.2 ▸ List.suffix_refl _
  | succ n ih =>
    intro args fl fl2 pos hn h
    cases args with
    | nil =>
      simp only [parseArgs, Except.ok.injEq, Prod.mk.injEq] at h
      exact h.2 ▸ List.suffix_refl _
    | cons s rest =>
      have hrest : rest.length ≤ n := by simpa using hn
      simp only [parseArgs] at h
      cases hc : classify s with
      | nonFlag =>
        simp only [hc, Except.ok.injEq, Prod.mk.injEq] at h
        exact h.2 ▸ List.suffix_refl _
      | terminator =>
        simp only [hc, Except.ok.injEq, Prod.mk.injEq] at h
        exact h.2 ▸ List.suffix_cons _ _
      | malformed => simp [hc] at h
      | flag name value =>
        simp only [hc] at h
        split at h
        · split at h <;> simp at h
        · split at h
          · split at h
            · exact (ih rest _ fl2 pos hrest h).trans (List.suffix_cons _ _)
            · simp at h
          · split at h
            · exact (ih rest _ fl2 pos hrest h).trans (List.suffix_cons _ _)
            · simp at h
        · split at h
          · split at h
            · exact (ih rest _ fl2 pos hrest h).trans (List.suffix_cons _ _)
            · simp at h
          · split at h
            · simp at h
            · rename_i v rest1
              split at h
              · have h1 : rest1.length ≤ n := by
                  simp only [List.length_cons] at hrest
                  omega
                exact ((ih rest1 _ fl2 pos h1 h).trans (List.suffix_cons _ _)).trans
                  (List.suffix_cons _ _)
              · simp at h

/-- The arguments flag parsing leaves are empty, or start with an argument
that is not a flag, or are what follows the terminator `--`. -/
theorem parseArgs_positional (atoi : String → Option Int) :
    ∀ (n : Nat) (args : List String) (fl fl2 : Flags) (pos : List String),
      args.length ≤ n → parseArgs atoi fl args = .ok (fl2, pos) →
      pos = [] ∨ (∃ p more, pos = p :: more ∧ classify p = .nonFlag) ∨
        ∃ before, args = before ++ "--" :: pos := by
  intro n
  induction n with
  | zero =>
    intro args fl fl2 pos hn h
    have : args = [] := List.length_eq_zero.mp (Nat.le_zero.mp hn)
    subst this
    simp only [parseArgs, Except.ok.injEq, Prod.mk.injEq] at h
    exact Or.inl h.2.symm
  | succ n ih =>
    intro args fl fl2 pos hn h
    cases args with
    | nil =>
      simp only [parseArgs, Except.ok.injEq, Prod.mk.injEq] at h
      exact Or.inl h.2.symm
    | cons s rest =>
      have hrest : rest.length ≤ n := by simpa using hn
      have lift : ∀ (l : List String) (pre : List String), s :: rest = pre ++ l →
          (pos = [] ∨ (∃ p more, pos = p :: more ∧ classify p = .nonFlag) ∨
            ∃ before, l = before ++ "--" :: pos) →
          pos = [] ∨ (∃ p more, pos = p :: more ∧ classify p = .nonFlag) ∨
            ∃ before, s :: rest = before ++ "--" :: pos := by
        intro l pre hl hcase
        rcases hcase with h1 | h2 | ⟨before, h3⟩
        · exact Or.inl h1
        · exact Or.inr (Or.inl h2)
        · exact Or.inr (Or.inr ⟨pre ++ before, by rw [hl, h3, List.append_assoc]⟩)
      simp only [parseArgs] at h
      cases hc : classify s with
      | nonFlag =>
        simp only [hc, Except.ok.injEq, Prod.mk.injEq] at h
        exact Or.inr (Or.inl ⟨s, rest, h.2.symm, hc⟩)
      | terminator =>
        simp only [hc, Except.ok.injEq, Prod.mk.injEq] at h
        have hs : s = "--" := by
          unfold classify at hc
          split at hc
          · rename_i c cs hl
            split at hc
            · rename_i hcd
              split at hc
              · rename_i hcs
                subst hcd hcs
                exact String.ext hl
              · exfalso
                unfold nameValue at hc
                split at hc
                · cases hc
                · split at hc
                  · cases hc
                  · split at hc <;> cases hc
            · exfalso
              unfold nameValue at hc
              split at hc
              · cases hc
              · split at hc
                · cases hc
                · split at hc <;> cases hc
          · cases hc
        exact Or.inr (Or.inr ⟨[], by rw [hs, h.2]; rfl⟩)
      | malformed => simp [hc] at h
      | flag name value =>
        simp only [hc] at h
        split at h
        · split at h <;> simp at h
        · split at h
          · split at h
            · exact lift rest [s] rfl (ih rest _ fl2 pos hrest h)
            · simp at h
          · split at h
            · exact lift rest [s] rfl (ih rest _ fl2 pos hrest h)
            · simp at h
        · split at h
          · split at h
            · exact lift rest [s] rfl (ih rest _ fl2 pos hrest h)
            · simp at h
          · split at h
            · simp at h
            · rename_i v rest1
              split at h
              · have h1 : rest1.length ≤ n := by
                  simp only [List.length_cons] at hrest
                  omega
                exact lift rest1 [s, v] rfl (ih rest1 _ fl2 pos h1 h)
              · simp at h

theorem phaseSteps_skeleton : skeleton.filter (fun s => s.method.isPhase) = pipeline := by decide

theorem phasesInvoked_skeleton :
    skeleton.filterMap Step.phaseStarted =
      [.infoFill, .treeFill, .infoAdjust, .treePrint] := by decide

theorem mem_call_of_mem_steps {tr : List Event} {m : Method} (h : Step.start m ∈ steps tr) :
    ∃ c, Event.call c ∈ tr ∧ c.method = m := by
  unfold steps at h
  obtain ⟨e, he, hs⟩ := List.mem_filterMap.mp h
  cases e <;> simp [Event.step] at hs
  exact ⟨_, he, hs⟩

theorem mem_phasesInvoked {tr : List Event} {m : Method} :
    m ∈ phasesInvoked tr ↔ m.isPhase = true ∧ Step.start m ∈ steps tr := by
  unfold phasesInvoked
  rw [List.mem_filterMap]
  constructor
  · rintro ⟨s, hs, h⟩
    cases s with
    | start k =>
      by_cases hk : k.isPhase = true
      · simp only [Step.phaseStarted, hk, if_true, Option.some.injEq] at h
        subst h
        exact ⟨hk, hs⟩
      · simp [Step.phaseStarted, hk] at h
    | done k => simp [Step.phaseStarted] at h
  · rintro ⟨hm, hs⟩
    exact ⟨_, hs, by simp [Step.phaseStarted, hm]⟩

theorem mem_call_Execute {env : Env} {args : List String} {c : Call}
    (h : Event.call c ∈ (Execute env args).trace) :
    ∃ fl pos, parseArgs env.atoi Flags.defaults args = .ok (fl, pos) ∧
      Event.call c ∈ (run env fl pos).trace := by
  unfold Execute at h
  split at h
  · simp [Res.abort] at h
  · rename_i fl pos hp
    exact ⟨fl, pos, hp, h⟩

theorem Execute_of_parse {env : Env} {args : List String} {fl : Flags} {pos : List String}
    (hp : parseArgs env.atoi Flags.defaults args = .ok (fl, pos)) :
    Execute env args = run env fl pos := by
  unfold Execute
  rw [hp]

/-- A run that invokes `Print` has parsed its command line and acquired
both inputs. -/
theorem treePrint_needs_inputs {env : Env} {args : List String}
    (h : Method.treePrint ∈ phasesInvoked (Execute env args).trace) :
    ∃ fl pos content file, parseArgs env.atoi Flags.defaults args = .ok (fl, pos) ∧
      upgradeContent? env fl.upgradeFile = some content ∧
      graphHandle? env fl.graphFile = some file := by
  obtain ⟨-, hs⟩ := mem_phasesInvoked.mp h
  obtain ⟨c, hc, hm⟩ := mem_call_of_mem_steps hs
  obtain ⟨fl, pos, hp, hr⟩ := mem_call_Execute hc
  refine ⟨fl, pos, ?_⟩
  have := mem_call_run env fl pos c hr
  rcases this with rfl | rfl | rfl | ⟨content, hu, h⟩
  · cases hm
  · cases hm
  · cases hm
  · rcases h with rfl | rfl | rfl | rfl | ⟨-, file, hg, -⟩
    · cases hm
    · cases hm
    · cases hm
    · cases hm
    · exact ⟨content, file, hp, hu, hg⟩

/-- C1: the calls and returns of the four phases form an initial segment of
registry fill, tree fill, adjust, print, each phase starting after the one
before has returned; `Print` is invoked only when the command line was
accepted and both inputs were acquired; and when they are and every call
returns, the run returns and all four phases have run, once each, in order. -/
theorem execute_phases_in_order (env : Env) (args : List String) :
    phaseSteps (Execute env args).trace <+: pipeline ∧
    phasesInvoked (Execute env args).trace <+: [.infoFill, .treeFill, .infoAdjust, .treePrint] ∧
    (Method.treePrint ∈ phasesInvoked (Execute env args).trace →
      ∃ fl pos content file, parseArgs env.atoi Flags.defaults args = .ok (fl, pos) ∧
        upgradeContent? env fl.upgradeFile = some content ∧
        graphHandle? env fl.graphFile = some file) ∧
    (∀ fl pos content file, parseArgs env.atoi Flags.defaults args = .ok (fl, pos) →
      upgradeContent? env fl.upgradeFile = some content →
      graphHandle? env fl.graphFile = some file →
      (∀ c, env.outcome c = .returns) →
      (Execute env args).val = .ok () ∧
        phaseSteps (Execute env args).trace = pipeline ∧
        phasesInvoked (Execute env args).trace =
          [.infoFill, .treeFill, .infoAdjust, .treePrint]) := by
  have hf := follows_Execute env args
  refine ⟨?_, ?_, ?_, ?_⟩
  · rw [← phaseSteps_skeleton]
    exact hf.1.filter _
  · rw [← phasesInvoked_skeleton]
    exact hf.1.filterMap _
  · exact treePrint_needs_inputs
  · intro fl pos content file hp hu hg hall
    have hv : (Execute env args).val = .ok () := by
      rw [Execute_of_parse hp, run_val_ok]
      exact ⟨content, file, hu, hg, hall _, hall _, hall _, hall _, hall _, hall _, hall _,
        hall _, hall _, hall _, hall _, hall _, hall _⟩
    have hs := hf.2 () hv
    refine ⟨hv, ?_, ?_⟩
    · unfold phaseSteps
      rw [hs, phaseSteps_skeleton]
    · unfold phasesInvoked
      rw [hs, phasesInvoked_skeleton]

theorem execute_phases_in_order_witness :
    (Execute envOk []).val = .ok () ∧
      phaseSteps (Execute envOk []).trace = pipeline ∧
      phasesInvoked (Execute envOk []).trace =
        [.infoFill, .treeFill, .infoAdjust, .treePrint] :=
  (execute_phases_in_order envOk []).2.2.2 Flags.defaults [] [123, 125]
    (.opened "/w/grapphfile.txt") rfl (by decide) (by decide) (fun _ => rfl)

/-! ## The two acquisition functions, as specified -/

theorem mem_exec_getUpgradeContent (env : Env) (uf : String) (argv : List String) :
    Event.exec argv ∈ (getUpgradeContent env uf).trace ↔
      uf = "" ∧ argv = ["go", "list", "-u", "-m", "-json", "all"] := by
  unfold getUpgradeContent
  simp only [bind_eq, pure_eq, mem_trace_bind, mem_trace_invoke, mem_trace_pure]
  by_cases hz : uf.length = 0
  · have hu : uf = "" := (length_eq_zero_iff uf).mp hz
    simp only [hz, if_true, mem_trace_bind, mem_trace_emit, val_emit]
    constructor
    · rintro (h | ⟨_, _, h⟩)
      · rcases h with h | ⟨_, _, h | ⟨_, _, h⟩⟩
        · cases h
        · exact ⟨hu, by simpa using h⟩
        · exfalso; split at h <;> simp [Res.abort, Res.pure] at h
      · simp at h
    · rintro ⟨-, rfl⟩
      simp
  · have hu : uf ≠ "" := fun h => hz ((length_eq_zero_iff uf).mpr h)
    simp only [hz, if_false, hu, false_and, iff_false]
    rintro (h | ⟨_, _, h⟩)
    · split at h
      · simp [Res.abort] at h
      · simp only [mem_trace_bind, mem_trace_emit] at h
        rcases h with h | ⟨_, _, h | ⟨_, _, h⟩⟩
        · cases h
        · cases h
        · split at h <;> simp [Res.abort, Res.pure] at h
    · simp at h

/-- C8: `getUpgradeContent` runs a command exactly when the upgrade file
name is empty, and that command is `go list -u -m -json all`; for the empty
name and a successful command it returns the command's standard output; for a
name whose file is read at its absolute path it returns the bytes of that
file; a failing command or an unreadable file ends the run in `log.Fatal`
instead.  Returning presupposes that the final `Log1f` call returns. -/
theorem getUpgradeContent_spec (env : Env) (upgradeFile : String) :
    ((∃ argv, Event.exec argv ∈ (getUpgradeContent env upgradeFile).trace) ↔ upgradeFile = "") ∧
    (∀ argv, Event.exec argv ∈ (getUpgradeContent env upgradeFile).trace →
      argv = ["go", "list", "-u", "-m", "-json", "all"]) ∧
    (∀ out, upgradeFile = "" → env.goList = .ok out →
      env.outcome (.log1f "upgrade content retrieved") = .returns →
      (getUpgradeContent env upgradeFile).val = .ok out) ∧
    (∀ path bytes, upgradeFile ≠ "" → env.abs upgradeFile = .ok path →
      env.readFile path = .ok bytes →
      env.outcome (.log1f "upgrade content retrieved") = .returns →
      (getUpgradeContent env upgradeFile).val = .ok bytes ∧
        Event.readFile path ∈ (getUpgradeContent env upgradeFile).trace) ∧
    (∀ err errbuf, upgradeFile = "" → env.goList = .error (err, errbuf) →
      (getUpgradeContent env upgradeFile).val = .error (.fatal (err ++ ", " ++ errbuf))) ∧
    (∀ path err, upgradeFile ≠ "" → env.abs upgradeFile = .ok path →
      env.readFile path = .error err →
      (getUpgradeContent env upgradeFile).val = .error (.fatal err)) := by
  refine ⟨?_, ?_, ?_, ?_, ?_, ?_⟩
  · constructor
    · rintro ⟨argv, h⟩
      exact ((mem_exec_getUpgradeContent env upgradeFile argv).mp h).1
    · intro h
      exact ⟨_, (mem_exec_getUpgradeContent env upgradeFile _).mpr ⟨h, rfl⟩⟩
  · intro argv h
    exact ((mem_exec_getUpgradeContent env upgradeFile argv).mp h).2
  · intro out hu hg hl
    rw [getUpgradeContent_val_ok]
    refine ⟨?_, hl⟩
    subst hu
    simp [upgradeContent?, hg]
  · intro path bytes hu ha hr hl
    have hz : ¬ upgradeFile.length = 0 := fun h => hu ((length_eq_zero_iff _).mp h)
    constructor
    · rw [getUpgradeContent_val_ok]
      refine ⟨?_, hl⟩
      simp [upgradeContent?, hz, ha, hr]
    · unfold getUpgradeContent
      simp only [bind_eq, pure_eq, mem_trace_bind, hz, if_false, ha, mem_trace_emit, val_emit]
      simp
  · intro err errbuf hu hg
    subst hu
    unfold getUpgradeContent
    simp [bind_eq, pure_eq, val_bind, val_emit, Res.abort, hg]
  · intro path err hu ha hr
    have hz : ¬ upgradeFile.length = 0 := fun h => hu ((length_eq_zero_iff _).mp h)
    unfold getUpgradeContent
    simp [bind_eq, pure_eq, val_bind, val_emit, Res.abort, hz, ha, hr]

theorem getUpgradeContent_spec_witness :
    (getUpgradeContent envOk "").val = .ok [123, 125] ∧
    ((getUpgradeContent envOk "upgradefile.txt").val = .ok [123, 125] ∧
      Event.readFile "/w/upgradefile.txt" ∈ (getUpgradeContent envOk "upgradefile.txt").trace) ∧
    (getUpgradeContent envNoUpgradeFile "upgradefile.txt").val =
      .error (.fatal "no such file or directory") :=
  ⟨(getUpgradeContent_spec envOk "").2.2.1 [123, 125] rfl rfl rfl,
   (getUpgradeContent_spec envOk "upgradefile.txt").2.2.2.1 "/w/upgradefile.txt" [123, 125]
     (by decide) rfl rfl rfl,
   (getUpgradeContent_spec envNoUpgradeFile "upgradefile.txt").2.2.2.2.2 "/w/upgradefile.txt"
     "no such file or directory" (by decide) rfl rfl⟩

/-- C9: when `getGraphFile` returns, the handle is standard input exactly
when the graph file name is empty; for the empty name it returns standard
input; for another name it opens the file at the absolute form of the name and
returns that handle; when the file cannot be opened the run ends in
`log.Fatal` instead.  Returning presupposes that the final `Log1f` call
returns. -/
theorem getGraphFile_spec (env : Env) (graphFile : String) :
    (∀ h, (getGraphFile env graphFile).val = .ok h → (h = .stdin ↔ graphFile = "")) ∧
    (graphFile = "" → env.outcome (.log1f "graph content retrieved") = .returns →
      (getGraphFile env graphFile).val = .ok .stdin) ∧
    (∀ path, graphFile ≠ "" → env.abs graphFile = .ok path → env.openFile path = none →
      env.outcome (.log1f "graph content retrieved") = .returns →
      (getGraphFile env graphFile).val = .ok (.opened path) ∧
        Event.openFile path ∈ (getGraphFile env graphFile).trace) ∧
    (∀ path err, graphFile ≠ "" → env.abs graphFile = .ok path →
      env.openFile path = some err →
      (getGraphFile env graphFile).val = .error (.fatal err)) := by
  refine ⟨?_, ?_, ?_, ?_⟩
  · intro h hv
    obtain ⟨hg, -⟩ := (getGraphFile_val_ok env graphFile h).mp hv
    unfold graphHandle? at hg
    by_cases hz : graphFile.length = 0
    · have hu : graphFile = "" := (length_eq_zero_iff _).mp hz
      simp only [hz, if_true, Option.some.injEq] at hg
      simp [← hg, hu]
    · have hu : graphFile ≠ "" := fun h => hz ((length_eq_zero_iff _).mpr h)
      simp only [hz, if_false] at hg
      rcases ha : env.abs graphFile with err | path
      · simp [ha] at hg
      · rcases ho : env.openFile path with _ | err
        · simp only [ha, ho, Option.some.injEq] at hg
          simp [← hg, hu]
        · simp [ha, ho] at hg
  · intro hu hl
    subst hu
    rw [getGraphFile_val_ok]
    exact ⟨rfl, hl⟩
  · intro path hu ha ho hl
    have hz : ¬ graphFile.length = 0 := fun h => hu ((length_eq_zero_iff _).mp h)
    constructor
    · rw [getGraphFile_val_ok]
      refine ⟨?_, hl⟩
      simp [graphHandle?, hz, ha, ho]
    · unfold getGraphFile
      simp only [bind_eq, pure_eq, mem_trace_bind, hz, if_false, ha, mem_trace_emit, val_emit]
      simp
  · intro path err hu ha ho
    have hz : ¬ graphFile.length = 0 := fun h => hu ((length_eq_zero_iff _).mp h)
    unfold getGraphFile
    simp [bind_eq, pure_eq, val_bind, val_emit, Res.abort, hz, ha, ho]

theorem getGraphFile_spec_witness :
    (getGraphFile envOk "").val = .ok .stdin ∧
    ((getGraphFile envOk "grapphfile.txt").val = .ok (.opened "/w/grapphfile.txt") ∧
      Event.openFile "/w/grapphfile.txt" ∈ (getGraphFile envOk "grapphfile.txt").trace) ∧
    (getGraphFile envNoGraphFile "grapphfile.txt").val =
      .error (.fatal "no such file or directory") :=
  ⟨(getGraphFile_spec envOk "").2.1 rfl rfl,
   (getGraphFile_spec envOk "grapphfile.txt").2.2.1 "/w/grapphfile.txt" (by decide) rfl rfl rfl,
   (getGraphFile_spec envNoGraphFile "grapphfile.txt").2.2.2 "/w/grapphfile.txt"
     "no such file or directory" (by decide) rfl rfl⟩

/-! ## Where `Adjust` sits in the run -/

set_option maxRecDepth 100000 in
/-- Order facts that hold of every initial segment of the full sequence of
calls. -/
theorem skeleton_order :
    ∀ l ∈ skeleton.inits,
      (∀ s ∈ beforeFirst (.start .treePrint) (afterFirst (.done .treeFill) l),
        Obj.tree ∉ s.method.inputs) ∧
      (Step.start .infoAdjust ∈ l → Step.done .treeFill ∈ beforeFirst (.start .infoAdjust) l) ∧
      (Step.start .treePrint ∈ l → Step.done .infoAdjust ∈ beforeFirst (.start .treePrint) l) ∧
      (∀ s ∈ afterFirst (.done .infoFill) l,
        s.method.receiver = some .info → s.method = .infoAdjust) ∧
      (∀ s ∈ afterFirst (.done .infoFill) l,
        Obj.info ∈ s.method.objArgs → s.method = .newTree) ∧
      l.count (.start .infoAdjust) ≤ 1 := by
  decide

theorem steps_Execute_mem_inits (env : Env) (args : List String) :
    steps (Execute env args).trace ∈ skeleton.inits :=
  (List.mem_inits _ _).mpr (follows_Execute env args).1

/-- C3, as the code has it: `Adjust` is a method of the registry and takes
no argument, so its only input is `info`; it starts after `tree.Fill` has
returned, `Print` starts after it has returned, and between the return of
`tree.Fill` and the start of `Print` no call takes the tree as input. -/
theorem adjust_runs_on_registry (env : Env) (args : List String) :
    (∀ c, Event.call c ∈ (Execute env args).trace → c.method = .infoAdjust →
      c = .infoAdjust ∧ c.method.inputs = [.info]) ∧
    (Step.start .infoAdjust ∈ steps (Execute env args).trace →
      Step.done .treeFill ∈
        beforeFirst (.start .infoAdjust) (steps (Execute env args).trace)) ∧
    (Step.start .treePrint ∈ steps (Execute env args).trace →
      Step.done .infoAdjust ∈
        beforeFirst (.start .treePrint) (steps (Execute env args).trace)) ∧
    (∀ s ∈ beforeFirst (.start .treePrint)
        (afterFirst (.done .treeFill) (steps (Execute env args).trace)),
      Obj.tree ∉ s.method.inputs) := by
  have h := skeleton_order _ (steps_Execute_mem_inits env args)
  refine ⟨?_, h.2.1, h.2.2.1, h.1⟩
  intro c _ hm
  cases c <;> simp [Call.method] at hm
  exact ⟨rfl, by decide⟩

/-- C3 as stated fails: in a complete run the `Adjust` call is
`info.Adjust()`, whose inputs do not include the tree. -/
theorem adjust_takes_tree_counterexample :
    Event.call .infoAdjust ∈ (Execute envOk []).trace ∧
      Call.infoAdjust.method.inputs = [.info] ∧
      Obj.tree ∉ Call.infoAdjust.method.inputs := by
  decide

/-- C4, as the code has it: after `info.Fill` has returned, the only
method `Execute` calls on the registry is `Adjust`, at most once, after
`tree.Fill` has returned and before `Print` starts; the only other call that
receives the registry is `NewTree`, which gets a copy. -/
theorem registry_after_fill (env : Env) (args : List String) :
    (∀ s ∈ afterFirst (.done .infoFill) (steps (Execute env args).trace),
      s.method.receiver = some .info → s.method = .infoAdjust) ∧
    (∀ s ∈ afterFirst (.done .infoFill) (steps (Execute env args).trace),
      Obj.info ∈ s.method.objArgs → s.method = .newTree) ∧
    (steps (Execute env args).trace).count (.start .infoAdjust) ≤ 1 ∧
    (Step.start .infoAdjust ∈ steps (Execute env args).trace →
      Step.done .treeFill ∈
        beforeFirst (.start .infoAdjust) (steps (Execute env args).trace)) ∧
    (Step.start .treePrint ∈ steps (Execute env args).trace →
      Step.done .infoAdjust ∈
        beforeFirst (.start .treePrint) (steps (Execute env args).trace)) := by
  have h := skeleton_order _ (steps_Execute_mem_inits env args)
  exact ⟨h.2.2.2.1, h.2.2.2.2.1, h.2.2.2.2.2, h.2.1, h.2.2.1⟩

/-- C4 as stated fails: in a complete run `info.Adjust()` is called on the
registry after `info.Fill` has returned, and it is not a lookup. -/
theorem registry_only_read_counterexample :
    Step.start .infoAdjust ∈ afterFirst (.done .infoFill) (steps (Execute envOk []).trace) ∧
      Method.infoAdjust.receiver = some .info ∧
      Method.infoAdjust.isLookup = false := by
  decide

/-! ## The values handed to the tree builder -/

/-- The arguments of every `NewTree` call are the parsed flag values and
the first positional argument. -/
theorem mem_newTree_Execute {env : Env} {args : List String} {fl : Flags} {pos : List String}
    (hp : parseArgs env.atoi Flags.defaults args = .ok (fl, pos))
    {r : String} {d : Int} {s vt sa col : Bool}
    (h : Event.call (.newTree r d s vt sa col) ∈ (Execute env args).trace) :
    r = rootOf pos ∧ d = fl.depth ∧ s = fl.showDroppedChild ∧ vt = fl.visualizeTrimmed ∧
      sa = fl.showAll ∧ col = fl.colored := by
  rw [Execute_of_parse hp] at h
  have h2 := mem_call_run env fl pos _ h
  simp only [reduceCtorEq, Call.newTree.injEq, false_or, or_false, false_and, and_false,
    exists_false] at h2
  obtain ⟨_, _, h3⟩ := h2
  exact h3

/-- A run that returns has called `NewTree`. -/
theorem newTree_called {env : Env} {args : List String} {fl : Flags} {pos : List String}
    (hp : parseArgs env.atoi Flags.defaults args = .ok (fl, pos))
    (hv : (Execute env args).val = .ok ()) :
    Event.call (.newTree (rootOf pos) fl.depth fl.showDroppedChild fl.visualizeTrimmed
      fl.showAll fl.colored) ∈ (Execute env args).trace := by
  have hs := (follows_Execute env args).2 () hv
  have hm : Step.start .newTree ∈ steps (Execute env args).trace := by
    rw [hs]; decide
  obtain ⟨c, hc, hmeth⟩ := mem_call_of_mem_steps hm
  cases c <;> simp [Call.method] at hmeth
  obtain ⟨rfl, rfl, rfl, rfl, rfl, rfl⟩ := mem_newTree_Execute hp hc
  exact hc

/-- C10: the root handed to `NewTree` is the first of the arguments left
after flag parsing, the empty string when none is left, and the arguments
after the first do not matter.  The arguments left are a final segment of the
command line: they are empty, or start with an argument that is not a flag, or
are what follows the terminator `--`.  A run that returns has made the call. -/
theorem root_is_first_positional (env : Env) (args : List String) (fl : Flags)
    (pos : List String) (hp : parseArgs env.atoi Flags.defaults args = .ok (fl, pos)) :
    (pos <:+ args ∧
      (pos = [] ∨ (∃ p more, pos = p :: more ∧ classify p = .nonFlag) ∨
        ∃ before, args = before ++ "--" :: pos)) ∧
    (∀ r d s vt sa col, Event.call (.newTree r d s vt sa col) ∈ (Execute env args).trace →
      (pos = [] → r = "") ∧ (∀ p more, pos = p :: more → r = p)) ∧
    ((Execute env args).val = .ok () →
      ∃ d s vt sa col,
        Event.call (.newTree (pos.headD "") d s vt sa col) ∈ (Execute env args).trace) := by
  refine ⟨⟨parseArgs_suffix env.atoi _ args _ fl pos (le_refl _) hp,
    parseArgs_positional env.atoi _ args _ fl pos (le_refl _) hp⟩, ?_, ?_⟩
  · intro r d s vt sa col h
    obtain ⟨rfl, -⟩ := mem_newTree_Execute hp h
    constructor
    · rintro rfl; rfl
    · rintro p more rfl; rfl
  · intro hv
    have h := newTree_called hp hv
    have hr : rootOf pos = pos.headD "" := by cases pos <;> rfl
    rw [hr] at h
    exact ⟨_, _, _, _, _, h⟩

theorem root_is_first_positional_witness :
    (["x", "y"] <:+ ["-d", "3", "x", "y"] ∧
      (["x", "y"] = [] ∨ (∃ p more, ["x", "y"] = p :: more ∧ classify p = .nonFlag) ∨
        ∃ before, ["-d", "3", "x", "y"] = before ++ "--" :: ["x", "y"])) ∧
    (∀ r d s vt sa col,
      Event.call (.newTree r d s vt sa col) ∈ (Execute envOk ["-d", "3", "x", "y"]).trace →
      (["x", "y"] = [] → r = "") ∧ (∀ p more, ["x", "y"] = p :: more → r = p)) ∧
    ((Execute envOk ["-d", "3", "x", "y"]).val = .ok () →
      ∃ d s vt sa col,
        Event.call (.newTree "x" d s vt sa col) ∈ (Execute envOk ["-d", "3", "x", "y"]).trace) :=
  root_is_first_positional envOk ["-d", "3", "x", "y"]
    { Flags.defaults with depth := 3 } ["x", "y"] rfl

/-- Flag parsing on the command line `-d text`. -/
theorem parseArgs_depth_flag (atoi : String → Option Int) (text : String) (n : Int)
    (hn : atoi text = some n) :
    parseArgs atoi Flags.defaults ["-d", text] =
      .ok ({ Flags.defaults with depth := n }, []) := by
  have h1 : parseArgs atoi Flags.defaults ["-d", text] =
      match Flags.set atoi Flags.defaults "d" text with
      | some fl1 => .ok (fl1, [])
      | none => .error (.invalidValue text "d") := rfl
  have hset : Flags.set atoi Flags.defaults "d" text =
      some { Flags.defaults with depth := n } := by
    simp [Flags.set, hn]
  rw [h1, hset]

/-- C5, as the code has it: the depth handed to `NewTree` is the parsed
value of the flag `d`, unchecked; on a command line without that flag it is
the default 5, and on the command line `-d text` it is the integer that `text`
denotes, whatever its sign.  A run that returns has made the call. -/
theorem depth_is_flag_value (env : Env) (args : List String) (fl : Flags)
    (pos : List String) (hp : parseArgs env.atoi Flags.defaults args = .ok (fl, pos)) :
    (∀ r d s vt sa col, Event.call (.newTree r d s vt sa col) ∈ (Execute env args).trace →
      d = fl.depth) ∧
    ((∀ a ∈ args, ∀ v, classify a ≠ .flag "d" v) → fl.depth = 5 ∧ 1 ≤ fl.depth) ∧
    (∀ text n, args = ["-d", text] → env.atoi text = some n → fl.depth = n) ∧
    ((Execute env args).val = .ok () →
      ∃ r s vt sa col,
        Event.call (.newTree r fl.depth s vt sa col) ∈ (Execute env args).trace) := by
  refine ⟨?_, ?_, ?_, ?_⟩
  · intro r d s vt sa col h
    exact (mem_newTree_Execute hp h).2.1
  · intro hno
    have h5 : fl.depth = 5 :=
      parseArgs_preserves env.atoi "d" (fun f => f.depth = 5)
        (fun f name v f1 hn hs hf => (set_depth env.atoi f name v f1 hn hs).trans hf)
        _ args Flags.defaults fl pos (le_refl _) hno rfl hp
    exact ⟨h5, by rw [h5]; decide⟩
  · rintro text n rfl hn
    rw [parseArgs_depth_flag env.atoi text n hn] at hp
    cases hp
    rfl
  · intro hv
    exact ⟨_, _, _, _, _, newTree_called hp hv⟩

theorem depth_is_flag_value_witness :
    (∀ r d s vt sa col,
      Event.call (.newTree r d s vt sa col) ∈ (Execute envOk ["-d", "-3"]).trace →
      d = -3) ∧
    ((∀ a ∈ ["-d", "-3"], ∀ v, classify a ≠ .flag "d" v) → (-3 : Int) = 5 ∧ 1 ≤ (-3 : Int)) ∧
    (∀ text n, ["-d", "-3"] = ["-d", text] → envOk.atoi text = some n → (-3 : Int) = n) ∧
    ((Execute envOk ["-d", "-3"]).val = .ok () →
      ∃ r s vt sa col,
        Event.call (.newTree r (-3) s vt sa col) ∈ (Execute envOk ["-d", "-3"]).trace) :=
  depth_is_flag_value envOk ["-d", "-3"] { Flags.defaults with depth := -3 } [] rfl

/-- C5 as stated fails: the command line `-d 0` is accepted, the run
completes, and the depth handed to `NewTree` is 0. -/
theorem depth_positive_counterexample :
    (Execute envOk ["-d", "0"]).val = .ok () ∧
      Event.call (.newTree "" 0 true true true false) ∈ (Execute envOk ["-d", "0"]).trace ∧
      ¬ (1 ≤ (0 : Int)) :=
  ⟨rfl, by decide, by decide⟩

/-- C7, as the code has it: the value of `showDroppedChild` handed to
`NewTree` is the parsed value of the flag `f`, whose default is `true`; on a
command line without that flag it is `true`, and `-f=false` switches it off. -/
theorem showDroppedChild_is_flag_value (env : Env) (args : List String) (fl : Flags)
    (pos : List String) (hp : parseArgs env.atoi Flags.defaults args = .ok (fl, pos)) :
    (∀ r d s vt sa col, Event.call (.newTree r d s vt sa col) ∈ (Execute env args).trace →
      s = fl.showDroppedChild) ∧
    ((∀ a ∈ args, ∀ v, classify a ≠ .flag "f" v) → fl.showDroppedChild = true) ∧
    (args = ["-f=false"] → fl.showDroppedChild = false) := by
  refine ⟨?_, ?_, ?_⟩
  · intro r d s vt sa col h
    exact (mem_newTree_Execute hp h).2.2.1
  · intro hno
    exact parseArgs_preserves env.atoi "f" (fun f => f.showDroppedChild = true)
      (fun f name v f1 hn hs hf => (set_showDroppedChild env.atoi f name v f1 hn hs).trans hf)
      _ args Flags.defaults fl pos (le_refl _) hno rfl hp
  · rintro rfl
    have : parseArgs env.atoi Flags.defaults ["-f=false"] =
        .ok ({ Flags.defaults with showDroppedChild := false }, []) := rfl
    rw [this] at hp
    cases hp
    rfl

theorem showDroppedChild_is_flag_value_witness :
    (∀ r d s vt sa col,
      Event.call (.newTree r d s vt sa col) ∈ (Execute envOk ["-c", "x"]).trace →
      s = true) ∧
    ((∀ a ∈ ["-c", "x"], ∀ v, classify a ≠ .flag "f" v) → true = true) ∧
    (["-c", "x"] = ["-f=false"] → true = false) :=
  showDroppedChild_is_flag_value envOk ["-c", "x"] { Flags.defaults with colored := true }
    ["x"] rfl

/-- C7 as stated fails: the empty command line contains no flag `f`, and
`NewTree` is called with `showDroppedChild` true. -/
theorem showDroppedChild_default_counterexample :
    (∀ a ∈ ([] : List String), ∀ v, classify a ≠ .flag "f" v) ∧
      Event.call (.newTree "" 5 true true true false) ∈ (Execute envOk []).trace ∧
      true ≠ false :=
  ⟨fun a ha => absurd ha (List.not_mem_nil a), by decide, by decide⟩

/-! ## Runs whose input cannot be acquired -/

theorem expected_pure {α : Type} (env : Env) (a : α) : (Res.pure a).AbortsExpectedly env := by
  intro e h
  simp [Res.pure] at h

theorem expected_emit (env : Env) (x : Event) : (Res.emit x).AbortsExpectedly env := by
  intro e h
  simp [Res.emit] at h

theorem expected_fatal {α : Type} (env : Env) (msg : String) :
    (Res.abort (.fatal msg) : Res α).AbortsExpectedly env := by
  intro e h
  simp only [Res.abort, Except.error.injEq] at h
  exact Or.inl ⟨msg, h.symm⟩

theorem expected_invoke (env : Env) (c : Call) : (invoke env c).AbortsExpectedly env := by
  intro e h
  unfold invoke at h
  cases ho : env.outcome c <;> simp only [ho, Except.error.injEq, reduceCtorEq] at h
  · exact Or.inr ⟨c, Or.inl ⟨h.symm, ho⟩⟩
  · exact Or.inr ⟨c, Or.inr ⟨h.symm, ho⟩⟩

theorem expected_bind {α β : Type} {env : Env} {m : Res α} {f : α → Res β}
    (hm : m.AbortsExpectedly env) (hf : ∀ a, (f a).AbortsExpectedly env) :
    (Res.bind m f).AbortsExpectedly env := by
  intro e h
  rw [val_bind] at h
  cases hv : m.val with
  | error x =>
    simp only [hv, Except.error.injEq] at h
    exact hm e (h ▸ hv)
  | ok a =>
    simp only [hv] at h
    exact hf a e h

theorem expected_deferClose {α : Type} {env : Env} {h : Handle} {body : Res α}
    (hb : body.AbortsExpectedly env) : (deferClose h body).AbortsExpectedly env := by
  intro e he
  unfold deferClose at he
  split at he
  · simp at he
  · rename_i c hc
    simp only [Except.error.injEq] at he
    exact hb e (he ▸ hc)
  · rename_i x _ hx
    simp only [Except.error.injEq] at he
    exact hb e (he ▸ hx)

theorem expected_getUpgradeContent (env : Env) (uf : String) :
    (getUpgradeContent env uf).AbortsExpectedly env := by
  unfold getUpgradeContent
  simp only [bind_eq, pure_eq]
  refine expected_bind ?_ fun content =>
    expected_bind (expected_invoke env _) fun _ => expected_pure env content
  split
  · refine expected_bind (expected_emit env _) fun _ => ?_
    refine expected_bind (expected_emit env _) fun _ => ?_
    split
    · exact expected_fatal env _
    · exact expected_pure env _
  · split
    · exact expected_fatal env _
    · refine expected_bind (expected_emit env _) fun _ => ?_
      refine expected_bind (expected_emit env _) fun _ => ?_
      split
      · exact expected_fatal env _
      · exact expected_pure env _

theorem expected_getGraphFile (env : Env) (gf : String) :
    (getGraphFile env gf).AbortsExpectedly env := by
  unfold getGraphFile
  simp only [bind_eq, pure_eq]
  refine expected_bind ?_ fun file =>
    expected_bind (expected_invoke env _) fun _ => expected_pure env file
  split
  · exact expected_pure env _
  · split
    · exact expected_fatal env _
    · refine expected_bind (expected_emit env _) fun _ => ?_
      refine expected_bind (expected_emit env _) fun _ => ?_
      split
      · exact expected_fatal env _
      · exact expected_pure env _

theorem expected_run (env : Env) (fl : Flags) (pos : List String) :
    (run env fl pos).AbortsExpectedly env := by
  unfold run
  simp only [bind_eq, pure_eq]
  refine expected_bind (expected_invoke env _) fun _ => ?_
  refine expected_bind (expected_invoke env _) fun _ => ?_
  refine expected_bind (expected_getUpgradeContent env _) fun content => ?_
  refine expected_bind (expected_invoke env _) fun _ => ?_
  refine expected_bind (expected_invoke env _) fun _ => ?_
  refine expected_bind (expected_invoke env _) fun _ => ?_
  refine expected_bind (expected_getGraphFile env _) fun file => ?_
  refine expected_deferClose ?_
  refine expected_bind (expected_invoke env _) fun _ => ?_
  refine expected_bind (expected_invoke env _) fun _ => ?_
  refine expected_bind (expected_invoke env _) fun _ => ?_
  refine expected_bind (expected_invoke env _) fun _ => ?_
  refine expected_bind (expected_invoke env _) fun _ => ?_
  exact expected_invoke env _

/-- Every text `run` writes to standard output is one of the three notices
of the acquisition functions. -/
theorem mem_stdout_run (env : Env) (fl : Flags) (pos : List String) (s : String)
    (h : Event.stdout s ∈ (run env fl pos).trace) :
    s = goListNotice ∨
      (∃ path, env.abs fl.upgradeFile = .ok path ∧ s = "use upgrade file " ++ path ++ "\n") ∨
      (∃ path, env.abs fl.graphFile = .ok path ∧ s = "use graph file " ++ path ++ "\n") := by
  unfold run at h
  simp only [bind_eq, pure_eq, mem_trace_bind, mem_trace_invoke, mem_stdout_deferClose,
    reduceCtorEq, false_and, or_false, false_or, exists_const, and_false, exists_false] at h
  obtain ⟨_, -, _, -, h⟩ := h
  rcases h with h | ⟨_, -, _, -, _, -, _, -, h⟩
  · rcases mem_stdout_getUpgradeContent env _ s h with ⟨-, h⟩ | ⟨-, path, ha, h⟩
    · exact Or.inl h
    · exact Or.inr (Or.inl ⟨path, ha, h⟩)
  · obtain ⟨-, path, ha, h⟩ := mem_stdout_getGraphFile env _ s h
    exact Or.inr (Or.inr ⟨path, ha, h⟩)

theorem mem_stdoutOf {tr : List Event} {s : String} :
    s ∈ stdoutOf tr ↔ Event.stdout s ∈ tr := by
  unfold stdoutOf
  rw [List.mem_filterMap]
  constructor
  · rintro ⟨e, he, hs⟩
    cases e <;> simp [Event.text] at hs
    exact hs ▸ he
  · intro h
    exact ⟨_, h, rfl⟩

/-- C2, as the code has it: when the upgrade content or the graph file
cannot be acquired, the run does not return, the abort is `log.Fatal` unless
a call into an internal package ended the run before, `Print` is never
invoked, and what `Execute` has written to standard output by then is at most
the notices it prints before touching its inputs. -/
theorem execute_aborts_before_print (env : Env) (args : List String) (fl : Flags)
    (pos : List String) (hp : parseArgs env.atoi Flags.defaults args = .ok (fl, pos))
    (hfail : upgradeContent? env fl.upgradeFile = none ∨
      graphHandle? env fl.graphFile = none) :
    (∃ e, (Execute env args).val = .error e ∧ Abort.Expected env e) ∧
    ((∀ c, env.outcome c = .returns) → ∃ msg, (Execute env args).val = .error (.fatal msg)) ∧
    Method.treePrint ∉ phasesInvoked (Execute env args).trace ∧
    (∀ s ∈ stdoutOf (Execute env args).trace,
      s = goListNotice ∨
      (∃ path, env.abs fl.upgradeFile = .ok path ∧ s = "use upgrade file " ++ path ++ "\n") ∨
      (∃ path, env.abs fl.graphFile = .ok path ∧ s = "use graph file " ++ path ++ "\n")) := by
  have hnot : (Execute env args).val ≠ .ok () := by
    rw [Execute_of_parse hp, Ne, run_val_ok]
    rintro ⟨content, file, hu, hg, -⟩
    rcases hfail with h | h
    · rw [hu] at h; cases h
    · rw [hg] at h; cases h
  have herr : ∃ e, (Execute env args).val = .error e ∧ Abort.Expected env e := by
    cases hv : (Execute env args).val with
    | ok u => exact absurd hv hnot
    | error e =>
      refine ⟨e, rfl, ?_⟩
      rw [Execute_of_parse hp] at hv
      exact expected_run env fl pos e hv
  refine ⟨herr, ?_, ?_, ?_⟩
  · intro hall
    obtain ⟨e, he, hk⟩ := herr
    rcases hk with ⟨msg, rfl⟩ | ⟨c, ⟨-, hc⟩ | ⟨-, hc⟩⟩
    · exact ⟨msg, he⟩
    · rw [hall c] at hc; cases hc
    · rw [hall c] at hc; cases hc
  · intro h
    obtain ⟨fl2, pos2, content, file, hp2, hu, hg⟩ := treePrint_needs_inputs h
    rw [hp] at hp2
    cases hp2
    rcases hfail with h | h
    · rw [hu] at h; cases h
    · rw [hg] at h; cases h
  · intro s hs
    rw [mem_stdoutOf, Execute_of_parse hp] at hs
    exact mem_stdout_run env fl pos s hs

theorem execute_aborts_before_print_witness :
    (∃ e, (Execute envNoGraphFile ["x"]).val = .error e ∧ Abort.Expected envNoGraphFile e) ∧
    ((∀ c, envNoGraphFile.outcome c = .returns) →
      ∃ msg, (Execute envNoGraphFile ["x"]).val = .error (.fatal msg)) ∧
    Method.treePrint ∉ phasesInvoked (Execute envNoGraphFile ["x"]).trace ∧
    (∀ s ∈ stdoutOf (Execute envNoGraphFile ["x"]).trace,
      s = goListNotice ∨
      (∃ path, envNoGraphFile.abs Flags.defaults.upgradeFile = .ok path ∧
        s = "use upgrade file " ++ path ++ "\n") ∨
      (∃ path, envNoGraphFile.abs Flags.defaults.graphFile = .ok path ∧
        s = "use graph file " ++ path ++ "\n")) :=
  execute_aborts_before_print envNoGraphFile ["x"] Flags.defaults ["x"] rfl
    (Or.inr (by decide))

/-- C2 as stated fails: with an unreadable upgrade file the run ends in
`log.Fatal`, and by then the notice naming the upgrade file is on standard
output. -/
theorem nothing_written_counterexample :
    upgradeContent? envNoUpgradeFile Flags.defaults.upgradeFile = none ∧
      (Execute envNoUpgradeFile []).val = .error (.fatal "no such file or directory") ∧
      stdoutOf (Execute envNoUpgradeFile []).trace =
        ["use upgrade file /w/upgradefile.txt\n"] :=
  ⟨by decide, rfl, by decide⟩

/-! ## The propagation pass of the specification -/

theorem any_descendantsAll_cons (c : TreeNode) (cs : List TreeNode) :
    (descendantsAll (c :: cs)).any TreeNode.hasDirectUpgrade =
      (c.hasDirectUpgrade || c.descendants.any TreeNode.hasDirectUpgrade ||
        (descendantsAll cs).any TreeNode.hasDirectUpgrade) := by
  simp [descendantsAll, List.any_append, Bool.or_assoc]

theorem marked_iff (n : TreeNode) :
    n.Marked ↔ n.needsTransitiveUpgrade = n.descendants.any TreeNode.hasDirectUpgrade := by
  unfold TreeNode.Marked
  constructor
  · intro h
    rw [Bool.eq_iff_iff, List.any_eq_true]
    exact h
  · intro h
    rw [h, List.any_eq_true]

mutual
/-- After the pass, the root and every descendant is marked correctly. -/
theorem adjust_marked : ∀ t : TreeNode,
    (Adjust t).Marked ∧ ∀ n ∈ (Adjust t).descendants, n.Marked
  | .mk ident depth hd nt tr cs => by
    obtain ⟨h1, h2⟩ := adjustAll_marked cs
    constructor
    · rw [marked_iff]
      simpa [Adjust, TreeNode.needsTransitiveUpgrade, TreeNode.descendants] using h1
    · simpa [Adjust, TreeNode.descendants] using h2
/-- The same for a list of subtrees. -/
theorem adjustAll_marked : ∀ cs : List TreeNode,
    ((adjustAll cs).any (fun c => c.hasDirectUpgrade || c.needsTransitiveUpgrade) =
        (descendantsAll (adjustAll cs)).any TreeNode.hasDirectUpgrade) ∧
      ∀ n ∈ descendantsAll (adjustAll cs), n.Marked
  | [] => by simp [adjustAll, descendantsAll]
  | c :: cs => by
    obtain ⟨hc, hd⟩ := adjust_marked c
    obtain ⟨h1, h2⟩ := adjustAll_marked cs
    constructor
    · rw [adjustAll, any_descendantsAll_cons, List.any_cons, h1, (marked_iff _).mp hc]
    · intro n hn
      rw [adjustAll, descendantsAll, List.mem_cons, List.mem_append] at hn
      rcases hn with rfl | hn | hn
      · exact hc
      · exact hd n hn
      · exact h2 n hn
end

mutual
/-- The pass leaves `hasDirectUpgrade` as it found it, at the root and at
every descendant. -/
theorem adjust_keeps_direct : ∀ t : TreeNode,
    (Adjust t).hasDirectUpgrade = t.hasDirectUpgrade ∧
      (Adjust t).descendants.map TreeNode.hasDirectUpgrade =
        t.descendants.map TreeNode.hasDirectUpgrade
  | .mk ident depth hd nt tr cs => by
    have h := adjustAll_keeps_direct cs
    constructor
    · simp [Adjust, TreeNode.hasDirectUpgrade]
    · simpa [Adjust, TreeNode.descendants] using h
/-- The same for a list of subtrees. -/
theorem adjustAll_keeps_direct : ∀ cs : List TreeNode,
    (descendantsAll (adjustAll cs)).map TreeNode.hasDirectUpgrade =
      (descendantsAll cs).map TreeNode.hasDirectUpgrade
  | [] => by simp [adjustAll, descendantsAll]
  | c :: cs => by
    obtain ⟨h1, h2⟩ := adjust_keeps_direct c
    have h3 := adjustAll_keeps_direct cs
    simp [adjustAll, descendantsAll, h1, h2, h3]
end

/-- C6: in the tree the propagation pass returns, a node, the root or any
descendant, has `needsTransitiveUpgrade` set exactly when one of its proper
descendants, at any depth, has `hasDirectUpgrade` set; the pass does not touch
`hasDirectUpgrade`, so for the root this is the same as a proper descendant
of the tree handed to the pass having `hasDirectUpgrade` set. -/
theorem needsTransitiveUpgrade_iff (t : TreeNode) :
    (∀ n ∈ Adjust t :: (Adjust t).descendants,
      (n.needsTransitiveUpgrade = true ↔ ∃ d ∈ n.descendants, d.hasDirectUpgrade = true)) ∧
    ((Adjust t).needsTransitiveUpgrade = true ↔
      ∃ d ∈ t.descendants, d.hasDirectUpgrade = true) := by
  have hroot := (adjust_marked t).1
  refine ⟨?_, ?_⟩
  · intro n hn
    rcases List.mem_cons.mp hn with rfl | h
    · exact hroot
    · exact (adjust_marked t).2 n h
  · have hmap := (adjust_keeps_direct t).2
    have hiff : (∃ d ∈ (Adjust t).descendants, d.hasDirectUpgrade = true) ↔
        ∃ d ∈ t.descendants, d.hasDirectUpgrade = true := by
      have h1 : (∃ d ∈ (Adjust t).descendants, d.hasDirectUpgrade = true) ↔
          true ∈ (Adjust t).descendants.map TreeNode.hasDirectUpgrade := by
        simp [List.mem_map]
      have h2 : (∃ d ∈ t.descendants, d.hasDirectUpgrade = true) ↔
          true ∈ t.descendants.map TreeNode.hasDirectUpgrade := by
        simp [List.mem_map]
      rw [h1, h2, hmap]
    exact hroot.trans hiff

theorem needsTransitiveUpgrade_iff_witness :
    (Adjust exampleTree).needsTransitiveUpgrade = true ↔
      ∃ d ∈ (Adjust exampleTree).descendants, d.hasDirectUpgrade = true :=
  (needsTransitiveUpgrade_iff exampleTree).1 (Adjust exampleTree) (List.mem_cons_self _ _)

end Deptree
